import Mathlib

set_option linter.unusedSectionVars false
set_option linter.unusedVariables false

/-!
# Verification of `utils::lru_cache` (include/lru_cache.h)

A shallow embedding of the asynchronous LRU cache. The cache state is:

* `map`    — the Index (`lru_map_t map_`), an association list from keys to
  nodes; a node carries the owned value and the two intrusive list links
  `older_` / `newer_` of the source's `node` class.
* Addresses of list nodes are `Option K`: `some k` is the map entry for key
  `k` (entries are never moved once stored, so the key identifies the
  storage location), and `none` is the distinguished sentinel entry
  (`map_entry sentinel_`).  The sentinel's links are kept in the fields
  `sOlder` / `sNewer` (`sentinel_.second.older_` / `sentinel_.second.newer_`).
  A link that points "to the sentinel" is the value `none`; the empty list's
  sentinel self-loop (`sentinel_.second.older_ == &sentinel_`) is therefore
  `sOlder = none`.
* `pending` — the Pending Wait-List (`pending_map_t pending_replies_`),
  an association list from keys to the FIFO vector of queued replies.
* `limit`  — the configured capacity (`limit_`).

Reply callbacks (`get_reply_f`) are modelled by the little language `RCb`:
`RCb.pure id` is an opaque callback that only records its invocation, and
`RCb.thenGet id k cont` is a callback that, when invoked, re-entrantly calls
`get k cont` on the cache — exactly the re-entrancy the source must support.
Observable behaviour is an event trace: `Event.fetchInvoked k` records an
invocation of the user-supplied miss handler (fetch function), and
`Event.replyInvoked id cursor err` records the invocation of the reply
callback `id` with a cursor (`some k` = entry of key `k`, `none` = the
end/sentinel cursor `cend()`) and an error code.  Error codes are `Nat`,
with `0` playing `std::error_code {0, system_category}` (= "no error").

The miss handler itself is external (an opaque capability, per the spec);
`get` records its invocation as an event, and the one-shot completion
lambda the source passes to it is the function `complete`, applied to the
state in which the handler runs.
-/

namespace AsyncLru

/-- Association-list lookup (first match), standing in for
`std::unordered_map::find`. -/
def alookup {K A : Type} [DecidableEq K] : List (K × A) → K → Option A
  | [], _ => none
  | (k', a) :: t, k => if k' = k then some a else alookup t k

/-- Update the mapped value of an existing key in place (no-op when the
key is absent); used for writes through an `entry_ptr`. -/
def aupdate {K A : Type} [DecidableEq K] : List (K × A) → K → (A → A) → List (K × A)
  | [], _, _ => []
  | (k', a) :: t, k, f => if k' = k then (k', f a) :: t else (k', a) :: aupdate t k f

/-- Erase a key, standing in for `std::unordered_map::erase`. -/
def aerase {K A : Type} [DecidableEq K] : List (K × A) → K → List (K × A)
  | [], _ => []
  | (k', a) :: t, k => if k' = k then aerase t k else (k', a) :: aerase t k

/-- `std::unordered_map::emplace`: inserts only when the key is absent. -/
def aemplace {K A : Type} [DecidableEq K] (m : List (K × A)) (k : K) (a : A) : List (K × A) :=
  match alookup m k with
  | some _ => m
  | none => (k, a) :: m

/-- The source's `node`: the owned value (`value_`, null for the sentinel
and never null for a stored entry) and the two intrusive links.  A freshly
emplaced node has null links in the source; they are overwritten by
`insert_at_head` before ever being read, so the model initialises them
to `none`. -/
structure Node (K V : Type) where
  value : Option V
  older : Option K
  newer : Option K
deriving DecidableEq

/-- Reply callbacks (`get_reply_f`), as a syntax that makes re-entrancy
observable: `pure id` only records that it was invoked; `thenGet id k cont`
records its invocation and then re-entrantly calls `get k cont`. -/
inductive RCb (K : Type) where
  | pure (id : Nat)
  | thenGet (id : Nat) (k : K) (cont : RCb K)
deriving DecidableEq

/-- Observable events: invocations of the user-supplied fetch function
(miss handler) and of reply callbacks. -/
inductive Event (K : Type) where
  | fetchInvoked (k : K)
  | replyInvoked (id : Nat) (cursor : Option K) (err : Nat)
deriving DecidableEq

/-- The cache state (`lru_cache`'s data members). -/
structure Cache (K V : Type) where
  map : List (K × Node K V)
  sOlder : Option K
  sNewer : Option K
  limit : Nat
  pending : List (K × List (RCb K))
deriving DecidableEq

/-- `std::error_code {0, std::system_category}` — the `no_error` value
`get` replies with on a hit, and the default error of a completion. -/
def noError : Nat := 0

/-- The constructor: empty index, sentinel self-loop
(`sentinel_.second.newer_ = sentinel_.second.older_ = &sentinel_`), empty
pending map.  The `load` parameter only tunes the hash table's bucket
count and has no behavioural effect, so it is not part of the state. -/
def emptyCache (K V : Type) (limit : Nat) : Cache K V :=
  { map := [], sOlder := none, sNewer := none, limit := limit, pending := [] }

/-- Read a node's `older_` link; address `none` reads the sentinel's. -/
def readOlder {K V : Type} [DecidableEq K] (c : Cache K V) : Option K → Option K
  | none => c.sOlder
  | some k =>
    match alookup c.map k with
    | some nd => nd.older
    | none => none

/-- Read a node's `newer_` link; address `none` reads the sentinel's. -/
def readNewer {K V : Type} [DecidableEq K] (c : Cache K V) : Option K → Option K
  | none => c.sNewer
  | some k =>
    match alookup c.map k with
    | some nd => nd.newer
    | none => none

/-- Write a node's `older_` link; address `none` writes the sentinel's. -/
def writeOlder {K V : Type} [DecidableEq K] (c : Cache K V) (a : Option K) (v : Option K) :
    Cache K V :=
  match a with
  | none => { c with sOlder := v }
  | some k => { c with map := aupdate c.map k (fun nd => { nd with older := v }) }

/-- Write a node's `newer_` link; address `none` writes the sentinel's. -/
def writeNewer {K V : Type} [DecidableEq K] (c : Cache K V) (a : Option K) (v : Option K) :
    Cache K V :=
  match a with
  | none => { c with sNewer := v }
  | some k => { c with map := aupdate c.map k (fun nd => { nd with newer := v }) }

/-- `lru_cache::extract`: unlink a node from the recency list, re-linking
its two neighbours.  Both reads happen before the two writes, and the
writes happen in the source's order. -/
def extract {K V : Type} [DecidableEq K] (c : Cache K V) (a : Option K) : Cache K V :=
  let older := readOlder c a
  let newer := readNewer c a
  let c1 := writeOlder c newer older
  writeNewer c1 older newer

/-- `lru_cache::insert_at_head`: re-link a node between the sentinel and
the current head (`sentinel_.second.older_`). -/
def insertAtHead {K V : Type} [DecidableEq K] (c : Cache K V) (a : Option K) : Cache K V :=
  let front := c.sOlder
  let c1 := writeOlder c a front
  let c2 := writeNewer c1 a none
  let c3 := writeNewer c2 front a
  writeOlder c3 none a

/-- `lru_cache::touch`: extract then insert at head (used on every hit). -/
def touch {K V : Type} [DecidableEq K] (c : Cache K V) (a : Option K) : Cache K V :=
  insertAtHead (extract c a) a

/-- `lru_cache::remove`: extract from the list, then erase from the index. -/
def removeKey {K V : Type} [DecidableEq K] (c : Cache K V) (k : K) : Cache K V :=
  let c1 := extract c (some k)
  { c1 with map := aerase c1.map k }

/-- `lru_cache::evict_lru`: remove the current tail `sentinel_.second.newer_`
(the least-recently-used entry).  On an empty list the source's
precondition is violated (§7 misuse / fail fast); the model leaves the
state unchanged there, and that branch is unreachable from well-formed
states. -/
def evictLru {K V : Type} [DecidableEq K] (c : Cache K V) : Cache K V :=
  match c.sNewer with
  | some k => removeKey c k
  | none => c

/-- The body of `lru_cache::enforce_limit`'s `while` loop, driven by
fuel.  Each iteration of the source's loop removes exactly one entry, so
`map.length` steps of fuel always suffice. -/
def enforceLimitAux {K V : Type} [DecidableEq K] : Nat → Cache K V → Cache K V
  | 0, c => c
  | fuel + 1, c => if c.map.length > c.limit then enforceLimitAux fuel (evictLru c) else c

/-- `lru_cache::enforce_limit`: `while (map_.size() > limit_) evict_lru();`. -/
def enforceLimit {K V : Type} [DecidableEq K] (c : Cache K V) : Cache K V :=
  enforceLimitAux c.map.length c

/-- `lru_cache::add_entry`: emplace the value into the index, thread the
new entry into the list head, enforce the capacity, and return a cursor
to the emplaced entry. -/
def addEntry {K V : Type} [DecidableEq K] (c : Cache K V) (k : K) (v : V) :
    Cache K V × Option K :=
  let m1 := aemplace c.map k { value := some v, older := none, newer := none }
  let c1 := { c with map := m1 }
  let c2 := insertAtHead c1 (some k)
  let c3 := enforceLimit c2
  (c3, some k)

/-- `lru_cache::flush`: clear the index and reset the sentinel self-loop.
`pending_replies_` is deliberately NOT cleared (source comment). -/
def flush {K V : Type} [DecidableEq K] (c : Cache K V) : Cache K V :=
  { c with map := [], sOlder := none, sNewer := none }

/-- `lru_cache::invalidate`: remove the key if present, no-op otherwise. -/
def invalidate {K V : Type} [DecidableEq K] (c : Cache K V) (k : K) : Cache K V :=
  match alookup c.map k with
  | some _ => removeKey c k
  | none => c

/-- `lru_cache::find`: the entry's cursor on a hit, `cend()` otherwise;
no touch, no fetch, no state change. -/
def findCursor {K V : Type} [DecidableEq K] (c : Cache K V) (k : K) : Option K :=
  match alookup c.map k with
  | some _ => some k
  | none => none

/-- Pending-map half of `get`'s miss path: `pending_replies_.emplace(key,
pending_reply_list_t())`. -/
def pEmplace {K : Type} [DecidableEq K] (p : List (K × List (RCb K))) (k : K) :
    List (K × List (RCb K)) :=
  match alookup p k with
  | some _ => p
  | none => (k, []) :: p

/-- `pending_iter->second.push_back(reply)`: append a reply to a key's
wait list (FIFO). -/
def pPush {K : Type} [DecidableEq K] (p : List (K × List (RCb K))) (k : K) (r : RCb K) :
    List (K × List (RCb K)) :=
  aupdate p k (fun rs => rs ++ [r])

/-- The two miss branches of `lru_cache::get`: if a fetch for `key` is
already outstanding, append the reply to its wait list and do not invoke
the fetch function; otherwise register a fresh wait-list entry containing
the reply and only then invoke the fetch function (recorded as an event —
the fetch's completion is `complete`, applied to the state this function
returns). -/
def getMiss {K V : Type} [DecidableEq K] (c : Cache K V) (k : K) (reply : RCb K) :
    Cache K V × List (Event K) :=
  match alookup c.pending k with
  | some _ => ({ c with pending := pPush c.pending k reply }, [])
  | none =>
    ({ c with pending := pPush (pEmplace c.pending k) k reply }, [Event.fetchInvoked k])

/-- Invoke a reply callback with a cursor and an error.  `thenGet`
re-entrantly performs `lru_cache::get` on its continuation: the hit
branch touches the entry and invokes the continuation with the entry's
cursor and `no_error`; the miss branches are `getMiss`. -/
def invokeReply {K V : Type} [DecidableEq K] (c : Cache K V) (cb : RCb K)
    (cur : Option K) (err : Nat) : Cache K V × List (Event K) :=
  match cb with
  | RCb.pure i => (c, [Event.replyInvoked i cur err])
  | RCb.thenGet i k cont =>
    let r :=
      match alookup c.map k with
      | some _ => invokeReply (touch c (some k)) cont (some k) noError
      | none => getMiss c k cont
    (r.1, Event.replyInvoked i cur err :: r.2)

/-- `lru_cache::get`: on a hit, touch the entry and reply synchronously
with its cursor and `no_error`; on a miss, `getMiss`. -/
def get {K V : Type} [DecidableEq K] (c : Cache K V) (k : K) (reply : RCb K) :
    Cache K V × List (Event K) :=
  match alookup c.map k with
  | some _ => invokeReply (touch c (some k)) reply (some k) noError
  | none => getMiss c k reply

/-- The completion lambda's drain loop: invoke each queued reply, in FIFO
order, with the one result.  The list is the wait list as found at the
start of the loop (a reply appended re-entrantly during the drain is not
visited). -/
def drain {K V : Type} [DecidableEq K] (c : Cache K V) (rs : List (RCb K))
    (cur : Option K) (err : Nat) : Cache K V × List (Event K) :=
  match rs with
  | [] => (c, [])
  | r :: t =>
    let s1 := invokeReply c r cur err
    let s2 := drain s1.1 t cur err
    (s2.1, s1.2 ++ s2.2)

/-- The one-shot completion lambda `get` hands to the miss handler: if a
value was supplied, insert it (`add_entry`) and take the resulting cursor,
else the result cursor is `cend()`; then find the key's wait list, invoke
every queued reply with the one result, and erase the wait-list entry
after the loop. -/
def complete {K V : Type} [DecidableEq K] (c : Cache K V) (k : K) (v : Option V)
    (err : Nat) : Cache K V × List (Event K) :=
  let s1 :=
    match v with
    | some val => addEntry c k val
    | none => (c, none)
  let rs := (alookup s1.1.pending k).getD []
  let s2 := drain s1.1 rs s1.2 err
  ({ s2.1 with pending := aerase s2.1.pending k }, s2.2)

/-- One public operation of the cache facade, plus delivery of an
outstanding fetch's completion.  A completion capability for `key` exists
exactly while `key` has a Pending Wait-List entry (it is created in
`get`'s miss path and consumed, one-shot, by the completion itself), so a
`complete` step is enabled only when the key is pending; delivering a
completion with no pending entry is §7 misuse (fail fast, unreachable). -/
inductive Op (K V : Type) where
  | get (k : K) (reply : RCb K)
  | find (k : K)
  | invalidate (k : K)
  | flush
  | complete (k : K) (v : Option V) (err : Nat)

/-- Apply one operation (events discarded). `find` is a pure lookup. -/
def applyOp {K V : Type} [DecidableEq K] (c : Cache K V) : Op K V → Cache K V
  | Op.get k r => (get c k r).1
  | Op.find _ => c
  | Op.invalidate k => invalidate c k
  | Op.flush => flush c
  | Op.complete k v e =>
    match alookup c.pending k with
    | some _ => (complete c k v e).1
    | none => c

/-- Run a sequence of operations. -/
def runOps {K V : Type} [DecidableEq K] (c : Cache K V) : List (Op K V) → Cache K V
  | [] => c
  | op :: t => runOps (applyOp c op) t

/-- Forward traversal from a cursor, as `const_iterator::operator++` does:
follow `older_` links until the sentinel, collecting keys; fuel bounds the
walk (the size of the index suffices on well-formed states). -/
def traverseFrom {K V : Type} [DecidableEq K] (c : Cache K V) : Nat → Option K → List K
  | 0, _ => []
  | _ + 1, none => []
  | fuel + 1, some k => k :: traverseFrom c fuel (readOlder c (some k))

/-- The sequence of keys visited from `cbegin()` (= `sentinel_.second.older_`)
to `cend()`. -/
def toList {K V : Type} [DecidableEq K] (c : Cache K V) : List K :=
  traverseFrom c c.map.length c.sOlder

/-- The keys currently stored in the Index. -/
def keys {K V : Type} [DecidableEq K] (c : Cache K V) : List K := c.map.map Prod.fst

/-- The stored value of a key's node (outer `none`: key absent). -/
def nodeVal {K V : Type} [DecidableEq K] (c : Cache K V) (k : K) : Option (Option V) :=
  (alookup c.map k).map Node.value

/-- The address one past a walk: the last key of `ks` (as an address),
or the start `a` when `ks` is empty. -/
def endA {K : Type} (a : Option K) (ks : List K) : Option K :=
  match ks.getLast? with
  | some k => some k
  | none => a

/-- The doubly-linked walk: starting at address `a`, following `older_`
links spells exactly `ks`, with each step's `newer_` link pointing back. -/
def chain {K V : Type} [DecidableEq K] (c : Cache K V) : Option K → List K → Prop
  | _, [] => True
  | a, k :: t => readOlder c a = some k ∧ readNewer c (some k) = a ∧ chain c (some k) t

/-- The full circular-list structure: the walk from the sentinel spells
`ks`, the last entry's `older_` link returns to the sentinel, and the
sentinel's `newer_` link (the LRU tail) points at the last entry. -/
def links {K V : Type} [DecidableEq K] (c : Cache K V) (ks : List K) : Prop :=
  chain c none ks ∧ readOlder c (endA none ks) = none ∧ readNewer c none = endA none ks

/-- Well-formedness of the cache data structure relative to the key list
`ks` (most-recently-used first): the Index's keys are exactly `ks`,
without duplicates, and the intrusive recency list threads them in that
order. -/
def wfC {K V : Type} [DecidableEq K] (c : Cache K V) (ks : List K) : Prop :=
  ks.Nodup ∧ (keys c).Nodup ∧ (∀ x, x ∈ keys c ↔ x ∈ ks) ∧ links c ks

/-- There is some key list the cache is well-formed over. -/
def wf {K V : Type} [DecidableEq K] (c : Cache K V) : Prop := ∃ ks, wfC c ks

/-- Every key is in the Index or in the Pending Wait-List, never both —
except possibly the key `bad` (transiently, during the completion drain
for `bad`, which inserts the entry before erasing the wait list). -/
def pendingDisjointExcept {K V : Type} [DecidableEq K] (c : Cache K V) (bad : Option K) :
    Prop :=
  ∀ x, (alookup c.pending x).isSome → (alookup c.map x).isSome → bad = some x

/-- The reachable-state invariant: structural well-formedness, Index and
Pending Wait-List disjoint (except at `bad`), occupancy within capacity. -/
def InvB {K V : Type} [DecidableEq K] (c : Cache K V) (bad : Option K) : Prop :=
  wf c ∧ pendingDisjointExcept c bad ∧ c.map.length ≤ c.limit

/-- Insert a sequence of key/value pairs, each by a `get` (with an
opaque reply) followed by the successful completion of its fetch — the
deferred-completion insertion scenario of §8's recency-ordering test. -/
def insertSeq {K V : Type} [DecidableEq K] (c : Cache K V) : List (K × V) → Cache K V
  | [] => c
  | (k, v) :: t => insertSeq (complete (get c k (RCb.pure 0)).1 k (some v) 0).1 t

/-- A sequence of further `get` calls for the same key (with opaque
replies), as issued while a fetch is outstanding. -/
def getSeq {K V : Type} [DecidableEq K] (c : Cache K V) (k : K) : List Nat → Cache K V
  | [] => c
  | i :: t => getSeq (get c k (RCb.pure i)).1 k t

/-- The events emitted by `getSeq`. -/
def getSeqEvents {K V : Type} [DecidableEq K] (c : Cache K V) (k : K) :
    List Nat → List (Event K)
  | [] => []
  | i :: t => (get c k (RCb.pure i)).2 ++ getSeqEvents (get c k (RCb.pure i)).1 k t

/-- Modelled from the spec: the completion step in the order C2 and §4.3
word it — "look up and REMOVE the Pending Wait-List entry for key" (step
2) and only then "invoke every queued callback" (step 3).  This differs
from the source's `complete`, which erases the wait-list entry after the
drain loop; the two are compared to settle C2. -/
def completeSpecOrder {K V : Type} [DecidableEq K] (c : Cache K V) (k : K) (v : Option V)
    (err : Nat) : Cache K V × List (Event K) :=
  let s1 :=
    match v with
    | some val => addEntry c k val
    | none => (c, none)
  let rs := (alookup s1.1.pending k).getD []
  let c1 := { s1.1 with pending := aerase s1.1.pending k }
  let s2 := drain c1 rs s1.2 err
  (s2.1, s2.2)

/-- A concrete two-entry cache (keys 1, 0 from most- to least-recently
used) used by witnesses. -/
def twoEntryCache : Cache Nat Nat :=
  { map := [(1, Node.mk (some 7) (some 0) none), (0, Node.mk (some 5) none (some 1))],
    sOlder := some 1, sNewer := some 0, limit := 2, pending := [] }

/-- A concrete empty cache with one outstanding fetch for key 0 and two
coalesced opaque waiters, used by witnesses. -/
def pendingTwoCache : Cache Nat Nat :=
  { map := [], sOlder := none, sNewer := none, limit := 1,
    pending := [(0, [RCb.pure 1, RCb.pure 2])] }

/-- A concrete empty cache with one outstanding fetch for key 0 whose
single waiter re-entrantly calls `get 0` when invoked. -/
def reentrantPendingCache : Cache Nat Nat :=
  { map := [], sOlder := none, sNewer := none, limit := 1,
    pending := [(0, [RCb.thenGet 1 0 (RCb.pure 2)])] }

/-- A concrete empty cache with one outstanding fetch for key 0, one
opaque waiter and one re-entrant waiter, used by witnesses. -/
def reentrantPendingCache2 : Cache Nat Nat :=
  { map := [], sOlder := none, sNewer := none, limit := 1,
    pending := [(0, [RCb.pure 4, RCb.thenGet 5 0 (RCb.pure 6)])] }

/-! ## Association-list lemmas -/

section AList

variable {K A : Type} [DecidableEq K]

theorem alookup_aupdate_self (m : List (K × A)) (k : K) (f : A → A) :
    alookup (aupdate m k f) k = (alookup m k).map f := by
  induction m with
  | nil => simp [alookup, aupdate]
  | cons h t ih =>
    obtain ⟨k', a⟩ := h
    by_cases hk : k' = k
    · subst hk; simp [alookup, aupdate]
    · simp [alookup, aupdate, hk, ih]

theorem alookup_aupdate_ne (m : List (K × A)) (k k' : K) (f : A → A) (h : k' ≠ k) :
    alookup (aupdate m k f) k' = alookup m k' := by
  induction m with
  | nil => simp [aupdate]
  | cons hd t ih =>
    obtain ⟨k'', a⟩ := hd
    have hne2 : ¬ (k = k') := fun hh => h hh.symm
    by_cases hk : k'' = k
    · simp [alookup, aupdate, hk, hne2]
    · by_cases hk2 : k'' = k'
      · simp [alookup, aupdate, hk, hk2, h]
      · simp [alookup, aupdate, hk, hk2, ih]

theorem keys_aupdate (m : List (K × A)) (k : K) (f : A → A) :
    (aupdate m k f).map Prod.fst = m.map Prod.fst := by
  induction m with
  | nil => simp [aupdate]
  | cons hd t ih =>
    obtain ⟨k', a⟩ := hd
    by_cases hk : k' = k
    · subst hk; simp [aupdate]
    · simp [aupdate, hk, ih]

theorem length_aupdate (m : List (K × A)) (k : K) (f : A → A) :
    (aupdate m k f).length = m.length := by
  have := congrArg List.length (keys_aupdate m k f)
  simpa using this

theorem alookup_eq_none_iff (m : List (K × A)) (k : K) :
    alookup m k = none ↔ k ∉ m.map Prod.fst := by
  induction m with
  | nil => simp [alookup]
  | cons hd t ih =>
    obtain ⟨k', a⟩ := hd
    simp only [alookup, List.map_cons, List.mem_cons]
    by_cases hk : k' = k
    · simp [hk]
    · have hne : ¬ (k = k') := fun hh => hk hh.symm
      rw [if_neg hk, ih]
      simp [hne]

theorem alookup_isSome_iff (m : List (K × A)) (k : K) :
    (alookup m k).isSome ↔ k ∈ m.map Prod.fst := by
  rw [Option.isSome_iff_ne_none]
  rw [Ne, alookup_eq_none_iff]
  exact not_not

theorem alookup_aerase_self (m : List (K × A)) (k : K) :
    alookup (aerase m k) k = none := by
  induction m with
  | nil => simp [alookup, aerase]
  | cons hd t ih =>
    obtain ⟨k', a⟩ := hd
    by_cases hk : k' = k
    · simp [aerase, hk, ih]
    · simp [alookup, aerase, hk, ih]

theorem alookup_aerase_ne (m : List (K × A)) (k k' : K) (h : k' ≠ k) :
    alookup (aerase m k) k' = alookup m k' := by
  induction m with
  | nil => simp [aerase]
  | cons hd t ih =>
    obtain ⟨k'', a⟩ := hd
    have hne2 : ¬ (k = k') := fun hh => h hh.symm
    by_cases hk : k'' = k
    · simp [alookup, aerase, hk, hne2, ih]
    · by_cases hk2 : k'' = k'
      · simp [alookup, aerase, hk, hk2, h]
      · simp [alookup, aerase, hk, hk2, ih]

theorem keys_aerase_subset (m : List (K × A)) (k : K) :
    ∀ x, x ∈ (aerase m k).map Prod.fst → x ∈ m.map Prod.fst := by
  induction m with
  | nil => simp [aerase]
  | cons hd t ih =>
    obtain ⟨k', a⟩ := hd
    by_cases hk : k' = k
    · subst hk
      simp only [aerase, if_pos rfl]
      intro x hx
      exact List.mem_cons_of_mem _ (ih x hx)
    · simp only [aerase, if_neg hk, List.map_cons, List.mem_cons]
      intro x hx
      rcases hx with h1 | h2
      · exact Or.inl h1
      · exact Or.inr (ih x h2)

theorem keysNodup_aerase (m : List (K × A)) (k : K) (h : (m.map Prod.fst).Nodup) :
    ((aerase m k).map Prod.fst).Nodup := by
  induction m with
  | nil => simp [aerase]
  | cons hd t ih =>
    obtain ⟨k', a⟩ := hd
    simp only [List.map_cons, List.nodup_cons] at h
    by_cases hk : k' = k
    · simp only [aerase, if_pos hk]
      exact ih h.2
    · simp only [aerase, if_neg hk, List.map_cons, List.nodup_cons]
      exact ⟨fun hm => h.1 (keys_aerase_subset t k k' hm), ih h.2⟩

theorem aerase_of_none (m : List (K × A)) (k : K) (h : alookup m k = none) :
    aerase m k = m := by
  induction m with
  | nil => simp [aerase]
  | cons hd t ih =>
    obtain ⟨k', a⟩ := hd
    by_cases hk : k' = k
    · rw [hk] at h; simp [alookup] at h
    · simp only [alookup, if_neg hk] at h
      simp [aerase, hk, ih h]

theorem length_aerase_of_mem (m : List (K × A)) (k : K) (a : A)
    (hl : alookup m k = some a) (hn : (m.map Prod.fst).Nodup) :
    (aerase m k).length + 1 = m.length := by
  induction m with
  | nil => simp [alookup] at hl
  | cons hd t ih =>
    obtain ⟨k', a'⟩ := hd
    simp only [List.map_cons, List.nodup_cons] at hn
    by_cases hk : k' = k
    · have ht : alookup t k = none := by
        rw [alookup_eq_none_iff]
        rw [hk] at hn
        exact hn.1
      simp [aerase, hk, aerase_of_none t k ht]
    · simp only [alookup, if_neg hk] at hl
      simp only [aerase, if_neg hk, List.length_cons]
      rw [ih hl hn.2]

end AList

/-! ## Link read/write lemmas -/

section Links

variable {K V : Type} [DecidableEq K]

theorem readOlder_writeOlder_self (c : Cache K V) (a v : Option K)
    (h : ∀ k, a = some k → (alookup c.map k).isSome) :
    readOlder (writeOlder c a v) a = v := by
  cases a with
  | none => rfl
  | some k =>
    have hs := h k rfl
    obtain ⟨nd, hnd⟩ := Option.isSome_iff_exists.mp hs
    simp [readOlder, writeOlder, alookup_aupdate_self, hnd]

theorem readOlder_writeOlder_ne (c : Cache K V) (a a' v : Option K) (h : a' ≠ a) :
    readOlder (writeOlder c a v) a' = readOlder c a' := by
  cases a with
  | none =>
    cases a' with
    | none => exact absurd rfl h
    | some k' => simp [readOlder, writeOlder]
  | some k =>
    cases a' with
    | none => simp [readOlder, writeOlder]
    | some k' =>
      have hk : k' ≠ k := fun hh => h (by rw [hh])
      simp [readOlder, writeOlder, alookup_aupdate_ne _ _ _ _ hk]

theorem readOlder_writeNewer (c : Cache K V) (a a' v : Option K) :
    readOlder (writeNewer c a v) a' = readOlder c a' := by
  cases a with
  | none => cases a' <;> simp [readOlder, writeNewer]
  | some k =>
    cases a' with
    | none => simp [readOlder, writeNewer]
    | some k' =>
      by_cases hk : k' = k
      · subst hk
        simp only [readOlder, writeNewer, alookup_aupdate_self]
        cases alookup c.map k' <;> simp
      · simp [readOlder, writeNewer, alookup_aupdate_ne _ _ _ _ hk]

theorem readNewer_writeNewer_self (c : Cache K V) (a v : Option K)
    (h : ∀ k, a = some k → (alookup c.map k).isSome) :
    readNewer (writeNewer c a v) a = v := by
  cases a with
  | none => rfl
  | some k =>
    have hs := h k rfl
    obtain ⟨nd, hnd⟩ := Option.isSome_iff_exists.mp hs
    simp [readNewer, writeNewer, alookup_aupdate_self, hnd]

theorem readNewer_writeNewer_ne (c : Cache K V) (a a' v : Option K) (h : a' ≠ a) :
    readNewer (writeNewer c a v) a' = readNewer c a' := by
  cases a with
  | none =>
    cases a' with
    | none => exact absurd rfl h
    | some k' => simp [readNewer, writeNewer]
  | some k =>
    cases a' with
    | none => simp [readNewer, writeNewer]
    | some k' =>
      have hk : k' ≠ k := fun hh => h (by rw [hh])
      simp [readNewer, writeNewer, alookup_aupdate_ne _ _ _ _ hk]

theorem readNewer_writeOlder (c : Cache K V) (a a' v : Option K) :
    readNewer (writeOlder c a v) a' = readNewer c a' := by
  cases a with
  | none => cases a' <;> simp [readNewer, writeOlder]
  | some k =>
    cases a' with
    | none => simp [readNewer, writeOlder]
    | some k' =>
      by_cases hk : k' = k
      · subst hk
        simp only [readNewer, writeOlder, alookup_aupdate_self]
        cases alookup c.map k' <;> simp
      · simp [readNewer, writeOlder, alookup_aupdate_ne _ _ _ _ hk]

theorem keys_writeOlder (c : Cache K V) (a v : Option K) :
    keys (writeOlder c a v) = keys c := by
  cases a <;> simp [keys, writeOlder, keys_aupdate]

theorem keys_writeNewer (c : Cache K V) (a v : Option K) :
    keys (writeNewer c a v) = keys c := by
  cases a <;> simp [keys, writeNewer, keys_aupdate]

theorem nodeVal_writeOlder (c : Cache K V) (a v : Option K) (k : K) :
    nodeVal (writeOlder c a v) k = nodeVal c k := by
  cases a with
  | none => rfl
  | some k' =>
    by_cases hk : k = k'
    · subst hk
      simp only [nodeVal, writeOlder, alookup_aupdate_self]
      cases alookup c.map k <;> simp
    · simp [nodeVal, writeOlder, alookup_aupdate_ne _ _ _ _ hk]

theorem nodeVal_writeNewer (c : Cache K V) (a v : Option K) (k : K) :
    nodeVal (writeNewer c a v) k = nodeVal c k := by
  cases a with
  | none => rfl
  | some k' =>
    by_cases hk : k = k'
    · subst hk
      simp only [nodeVal, writeNewer, alookup_aupdate_self]
      cases alookup c.map k <;> simp
    · simp [nodeVal, writeNewer, alookup_aupdate_ne _ _ _ _ hk]

theorem pending_writeOlder (c : Cache K V) (a v : Option K) :
    (writeOlder c a v).pending = c.pending := by
  cases a <;> rfl

theorem pending_writeNewer (c : Cache K V) (a v : Option K) :
    (writeNewer c a v).pending = c.pending := by
  cases a <;> rfl

theorem limit_writeOlder (c : Cache K V) (a v : Option K) :
    (writeOlder c a v).limit = c.limit := by
  cases a <;> rfl

theorem limit_writeNewer (c : Cache K V) (a v : Option K) :
    (writeNewer c a v).limit = c.limit := by
  cases a <;> rfl

theorem keys_extract (c : Cache K V) (a : Option K) :
    keys (extract c a) = keys c := by
  simp [extract, keys_writeOlder, keys_writeNewer]

theorem keys_insertAtHead (c : Cache K V) (a : Option K) :
    keys (insertAtHead c a) = keys c := by
  simp [insertAtHead, keys_writeOlder, keys_writeNewer]

theorem keys_touch (c : Cache K V) (a : Option K) :
    keys (touch c a) = keys c := by
  simp [touch, keys_extract, keys_insertAtHead]

theorem nodeVal_extract (c : Cache K V) (a : Option K) (k : K) :
    nodeVal (extract c a) k = nodeVal c k := by
  simp [extract, nodeVal_writeOlder, nodeVal_writeNewer]

theorem nodeVal_insertAtHead (c : Cache K V) (a : Option K) (k : K) :
    nodeVal (insertAtHead c a) k = nodeVal c k := by
  simp [insertAtHead, nodeVal_writeOlder, nodeVal_writeNewer]

theorem nodeVal_touch (c : Cache K V) (a : Option K) (k : K) :
    nodeVal (touch c a) k = nodeVal c k := by
  simp [touch, nodeVal_extract, nodeVal_insertAtHead]

theorem pending_extract (c : Cache K V) (a : Option K) :
    (extract c a).pending = c.pending := by
  simp [extract, pending_writeOlder, pending_writeNewer]

theorem pending_insertAtHead (c : Cache K V) (a : Option K) :
    (insertAtHead c a).pending = c.pending := by
  simp [insertAtHead, pending_writeOlder, pending_writeNewer]

theorem pending_touch (c : Cache K V) (a : Option K) :
    (touch c a).pending = c.pending := by
  simp [touch, pending_extract, pending_insertAtHead]

theorem limit_extract (c : Cache K V) (a : Option K) :
    (extract c a).limit = c.limit := by
  simp [extract, limit_writeOlder, limit_writeNewer]

theorem limit_insertAtHead (c : Cache K V) (a : Option K) :
    (insertAtHead c a).limit = c.limit := by
  simp [insertAtHead, limit_writeOlder, limit_writeNewer]

theorem limit_touch (c : Cache K V) (a : Option K) :
    (touch c a).limit = c.limit := by
  simp [touch, limit_extract, limit_insertAtHead]

theorem length_map_writeOlder (c : Cache K V) (a v : Option K) :
    (writeOlder c a v).map.length = c.map.length := by
  cases a <;> simp [writeOlder, length_aupdate]

theorem length_map_writeNewer (c : Cache K V) (a v : Option K) :
    (writeNewer c a v).map.length = c.map.length := by
  cases a <;> simp [writeNewer, length_aupdate]

theorem length_map_extract (c : Cache K V) (a : Option K) :
    (extract c a).map.length = c.map.length := by
  simp [extract, length_map_writeOlder, length_map_writeNewer]

theorem length_map_insertAtHead (c : Cache K V) (a : Option K) :
    (insertAtHead c a).map.length = c.map.length := by
  simp [insertAtHead, length_map_writeOlder, length_map_writeNewer]

theorem length_map_touch (c : Cache K V) (a : Option K) :
    (touch c a).map.length = c.map.length := by
  simp [touch, length_map_extract, length_map_insertAtHead]

theorem mem_keys_iff_isSome (c : Cache K V) (k : K) :
    k ∈ keys c ↔ (alookup c.map k).isSome :=
  (alookup_isSome_iff c.map k).symm

end Links

/-! ## The recency-list chain predicate -/

section Chain

variable {K V : Type} [DecidableEq K]

theorem endA_nil (a : Option K) : endA a ([] : List K) = a := rfl

theorem endA_cons (a : Option K) (k : K) (t : List K) :
    endA a (k :: t) = endA (some k) t := by
  cases t with
  | nil => rfl
  | cons b bt =>
    rw [endA, endA, List.getLast?_cons_cons]
    cases h : (b :: bt).getLast? with
    | none => rw [List.getLast?_eq_none_iff] at h; exact absurd h (by simp)
    | some x => rfl

theorem endA_mem (a : Option K) (ks : List K) : endA a ks ∈ a :: ks.map some := by
  induction ks generalizing a with
  | nil => simp [endA]
  | cons k t ih =>
    rw [endA_cons]
    have h := ih (some k)
    simp only [List.mem_cons, List.map_cons] at h ⊢
    rcases h with h | h
    · exact Or.inr (Or.inl h)
    · exact Or.inr (Or.inr h)

theorem chain_nil (c : Cache K V) (a : Option K) : chain c a [] := trivial

theorem chain_cons (c : Cache K V) (a : Option K) (k : K) (t : List K) :
    chain c a (k :: t) ↔
      readOlder c a = some k ∧ readNewer c (some k) = a ∧ chain c (some k) t :=
  Iff.rfl

theorem chain_congr (c c' : Cache K V) (a : Option K) (ks : List K)
    (hf : ∀ x, x ∈ a :: ks.map some → readOlder c' x = readOlder c x)
    (hg : ∀ x, x ∈ ks.map some → readNewer c' x = readNewer c x)
    (h : chain c a ks) : chain c' a ks := by
  induction ks generalizing a with
  | nil => trivial
  | cons k t ih =>
    obtain ⟨h1, h2, h3⟩ := h
    refine ⟨?_, ?_, ?_⟩
    · rw [hf a (by simp)]; exact h1
    · rw [hg (some k) (by simp)]; exact h2
    · refine ih (some k) (fun x hx => hf x ?_) (fun x hx => hg x ?_) h3
      · simp only [List.mem_cons, List.map_cons] at hx ⊢
        tauto
      · simp only [List.mem_cons, List.map_cons] at hx ⊢
        tauto

theorem chain_append (c : Cache K V) (a : Option K) (l r : List K) :
    chain c a (l ++ r) ↔ chain c a l ∧ chain c (endA a l) r := by
  induction l generalizing a with
  | nil => simp [chain, endA]
  | cons k t ih =>
    rw [List.cons_append, chain_cons, chain_cons, ih (some k), endA_cons]
    tauto

theorem endA_ne_nil (a b : Option K) (ks : List K) (h : ks ≠ []) :
    endA a ks = endA b ks := by
  cases hh : ks.getLast? with
  | none => rw [List.getLast?_eq_none_iff] at hh; exact absurd hh h
  | some x => simp [endA, hh]

theorem endA_concat (a : Option K) (l : List K) (k : K) :
    endA a (l ++ [k]) = some k := by
  simp [endA, List.getLast?_concat]

theorem endA_append_ne_nil (a : Option K) (l r : List K) (h : r ≠ []) :
    endA a (l ++ r) = endA a r := by
  unfold endA
  rw [List.getLast?_append_of_ne_nil _ h]

theorem isSome_alookup_writeOlder (c : Cache K V) (a v : Option K) (x : K) :
    (alookup (writeOlder c a v).map x).isSome = (alookup c.map x).isSome := by
  rw [← Bool.coe_iff_coe]
  rw [alookup_isSome_iff, alookup_isSome_iff]
  have := keys_writeOlder c a v
  rw [show (writeOlder c a v).map.map Prod.fst = keys (writeOlder c a v) from rfl]
  rw [show c.map.map Prod.fst = keys c from rfl, this]

theorem isSome_alookup_writeNewer (c : Cache K V) (a v : Option K) (x : K) :
    (alookup (writeNewer c a v).map x).isSome = (alookup c.map x).isSome := by
  rw [← Bool.coe_iff_coe]
  rw [alookup_isSome_iff, alookup_isSome_iff]
  have := keys_writeNewer c a v
  rw [show (writeNewer c a v).map.map Prod.fst = keys (writeNewer c a v) from rfl]
  rw [show c.map.map Prod.fst = keys c from rfl, this]

/-- What `insert_at_head` does to every `older_` link: the sentinel's now
points at the inserted node, the inserted node's points at the old head,
everything else is untouched. -/
theorem readOlder_insertAtHead (c : Cache K V) (k : K) (x : Option K)
    (hmem : (alookup c.map k).isSome) :
    readOlder (insertAtHead c (some k)) x =
      if x = none then some k else if x = some k then c.sOlder else readOlder c x := by
  unfold insertAtHead
  by_cases hx : x = none
  · subst hx
    rw [if_pos rfl]
    exact readOlder_writeOlder_self _ none (some k) (fun j hj => by cases hj)
  · rw [if_neg hx, readOlder_writeOlder_ne _ _ _ _ hx, readOlder_writeNewer,
      readOlder_writeNewer]
    by_cases hk : x = some k
    · subst hk
      rw [if_pos rfl]
      exact readOlder_writeOlder_self _ _ _ (fun j hj => by cases hj; exact hmem)
    · rw [if_neg hk, readOlder_writeOlder_ne _ _ _ _ hk]

/-- What `insert_at_head` does to every `newer_` link: the old head's now
points at the inserted node, the inserted node's points at the sentinel,
everything else is untouched. -/
theorem readNewer_insertAtHead (c : Cache K V) (k : K) (x : Option K)
    (hmem : (alookup c.map k).isSome)
    (hfr : ∀ j, c.sOlder = some j → (alookup c.map j).isSome) :
    readNewer (insertAtHead c (some k)) x =
      if x = c.sOlder then some k else if x = some k then none else readNewer c x := by
  unfold insertAtHead
  rw [readNewer_writeOlder]
  by_cases hx : x = c.sOlder
  · rw [if_pos hx, hx]
    refine readNewer_writeNewer_self _ _ _ (fun j hj => ?_)
    rw [isSome_alookup_writeNewer, isSome_alookup_writeOlder]
    exact hfr j hj
  · rw [if_neg hx, readNewer_writeNewer_ne _ _ _ _ hx]
    by_cases hk : x = some k
    · subst hk
      rw [if_pos rfl]
      refine readNewer_writeNewer_self _ _ _ (fun j hj => ?_)
      cases hj
      rw [isSome_alookup_writeOlder]
      exact hmem
    · rw [if_neg hk, readNewer_writeNewer_ne _ _ _ _ hk, readNewer_writeOlder]

/-- What `extract` does to every `older_` link: the removed node's
`newer_`-side neighbour now points past it, everything else untouched. -/
theorem readOlder_extract (c : Cache K V) (a x : Option K)
    (hn : ∀ j, readNewer c a = some j → (alookup c.map j).isSome) :
    readOlder (extract c a) x =
      if x = readNewer c a then readOlder c a else readOlder c x := by
  unfold extract
  rw [readOlder_writeNewer]
  by_cases hx : x = readNewer c a
  · rw [if_pos hx, hx]
    exact readOlder_writeOlder_self _ _ _ hn
  · rw [if_neg hx, readOlder_writeOlder_ne _ _ _ _ hx]

/-- What `extract` does to every `newer_` link: the removed node's
`older_`-side neighbour now points past it, everything else untouched. -/
theorem readNewer_extract (c : Cache K V) (a x : Option K)
    (ho : ∀ j, readOlder c a = some j → (alookup c.map j).isSome) :
    readNewer (extract c a) x =
      if x = readOlder c a then readNewer c a else readNewer c x := by
  unfold extract
  by_cases hx : x = readOlder c a
  · rw [if_pos hx, hx]
    refine readNewer_writeNewer_self _ _ _ (fun j hj => ?_)
    rw [isSome_alookup_writeOlder]
    exact ho j hj
  · rw [if_neg hx, readNewer_writeNewer_ne _ _ _ _ hx, readNewer_writeOlder]

theorem endA_ne_nil_eq_some (a : Option K) (ks : List K) (h : ks ≠ []) :
    ∃ lk, endA a ks = some lk ∧ lk ∈ ks := by
  cases hh : ks.getLast? with
  | none => rw [List.getLast?_eq_none_iff] at hh; exact absurd hh h
  | some lk =>
    refine ⟨lk, by simp [endA, hh], ?_⟩
    have hmem : lk ∈ ks.getLast? := by rw [hh]; rfl
    obtain ⟨hne, heq⟩ := List.mem_getLast?_eq_getLast hmem
    rw [heq]
    exact List.getLast_mem hne

/-- Effect of `insert_at_head` on the full circular structure: inserting a
fresh key in front of the walk `ks` yields the walk `k :: ks`. -/
theorem links_insertAtHead (c : Cache K V) (k : K) (ks : List K)
    (hl : links c ks) (hnd : ks.Nodup) (hk : k ∉ ks)
    (hmem : (alookup c.map k).isSome)
    (hks : ∀ x ∈ ks, (alookup c.map x).isSome) :
    links (insertAtHead c (some k)) (k :: ks) := by
  obtain ⟨hch, hend, hsn⟩ := hl
  cases ks with
  | nil =>
    have hfr : c.sOlder = none := hend
    have hfr' : ∀ j, c.sOlder = some j → (alookup c.map j).isSome := by
      intro j hj; rw [hfr] at hj; cases hj
    refine ⟨⟨?_, ?_, trivial⟩, ?_, ?_⟩
    · rw [readOlder_insertAtHead c k none hmem]; simp
    · rw [readNewer_insertAtHead c k (some k) hmem hfr', hfr]
      simp
    · show readOlder (insertAtHead c (some k)) (endA none [k]) = none
      have : endA none [k] = some k := rfl
      rw [this, readOlder_insertAtHead c k (some k) hmem]
      simp [hfr]
    · show readNewer (insertAtHead c (some k)) none = endA none [k]
      have : endA none [k] = some k := rfl
      rw [this, readNewer_insertAtHead c k none hmem hfr', hfr]
      simp
  | cons k0 t =>
    obtain ⟨h1, h2, h3⟩ := hch
    have hfr : c.sOlder = some k0 := h1
    have hfr' : ∀ j, c.sOlder = some j → (alookup c.map j).isSome := by
      intro j hj
      rw [hfr] at hj
      cases hj
      exact hks k0 (by simp)
    have hkk0 : k ≠ k0 := fun h => hk (h ▸ List.mem_cons_self k0 t)
    have hkt : k ∉ t := fun h => hk (List.mem_cons_of_mem k0 h)
    have hk0t : k0 ∉ t := (List.nodup_cons.mp hnd).1
    refine ⟨⟨?_, ?_, ?_, ?_, ?_⟩, ?_, ?_⟩
    · rw [readOlder_insertAtHead c k none hmem]; simp
    · rw [readNewer_insertAtHead c k (some k) hmem hfr', hfr]
      simp [hkk0]
    · rw [readOlder_insertAtHead c k (some k) hmem, hfr]
      simp
    · rw [readNewer_insertAtHead c k (some k0) hmem hfr', hfr]
      simp
    · refine chain_congr c _ (some k0) t ?_ ?_ h3
      · intro x hx
        obtain ⟨y, hy, hxy⟩ : ∃ y, (y = k0 ∨ y ∈ t) ∧ x = some y := by
          simp only [List.mem_cons, List.mem_map] at hx
          rcases hx with h | ⟨y, hy, hxy⟩
          · exact ⟨k0, Or.inl rfl, h⟩
          · exact ⟨y, Or.inr hy, hxy.symm⟩
        have hxnone : x ≠ none := by rw [hxy]; simp
        have hxk : x ≠ some k := by
          rw [hxy]
          intro hh
          cases hh
          rcases hy with h | h
          · exact hkk0 h
          · exact hkt h
        rw [readOlder_insertAtHead c k x hmem, if_neg hxnone, if_neg hxk]
      · intro x hx
        obtain ⟨y, hy, hxy⟩ : ∃ y, y ∈ t ∧ x = some y := by
          simp only [List.mem_map] at hx
          obtain ⟨y, hy, hxy⟩ := hx
          exact ⟨y, hy, hxy.symm⟩
        have hxfr : x ≠ c.sOlder := by
          rw [hxy, hfr]
          intro hh
          cases hh
          exact hk0t hy
        have hxk : x ≠ some k := by
          rw [hxy]
          intro hh
          cases hh
          exact hkt hy
        rw [readNewer_insertAtHead c k x hmem hfr', if_neg hxfr, if_neg hxk]
    · obtain ⟨lk, hlk, hlkmem⟩ := endA_ne_nil_eq_some none (k0 :: t) (by simp)
      have he : endA none (k :: k0 :: t) = some lk := by
        rw [endA_cons, endA_ne_nil (some k) none (k0 :: t) (by simp), hlk]
      rw [he, readOlder_insertAtHead c k (some lk) hmem]
      have h1' : (some lk : Option K) ≠ none := by simp
      have h2' : (some lk : Option K) ≠ some k := by
        intro hh
        cases hh
        exact hk hlkmem
      rw [if_neg h1', if_neg h2']
      rw [hlk] at hend
      exact hend
    · rw [readNewer_insertAtHead c k none hmem hfr', hfr]
      have h1' : (none : Option K) ≠ some k0 := by simp
      have h2' : (none : Option K) ≠ some k := by simp
      rw [if_neg h1', if_neg h2']
      rw [hsn, endA_cons none k (k0 :: t)]
      exact endA_ne_nil none (some k) (k0 :: t) (by simp)

/-- Effect of `extract` on the walk: removing the key `k` from wherever
it sits leaves the walk on the remaining keys intact. -/
theorem chain_extract_aux (c : Cache K V) (k : K) (r : List K)
    (hn : ∀ j, readNewer c (some k) = some j → (alookup c.map j).isSome)
    (ho : ∀ j, readOlder c (some k) = some j → (alookup c.map j).isSome)
    (hro : r = [] → readOlder c (some k) = none) :
    ∀ (l : List K) (a : Option K),
      a ∉ (l ++ k :: r).map some →
      (l ++ k :: r).Nodup →
      chain c a (l ++ k :: r) →
      chain (extract c (some k)) a (l ++ r) := by
  intro l
  induction l with
  | nil =>
    intro a ha hnd hch
    obtain ⟨h1, h2, h3⟩ := hch
    cases r with
    | nil => exact chain_nil _ a
    | cons r0 r' =>
      obtain ⟨g1, g2, g3⟩ := h3
      refine ⟨?_, ?_, ?_⟩
      · rw [readOlder_extract c (some k) a hn, h2, if_pos rfl]
        exact g1
      · rw [readNewer_extract c (some k) (some r0) ho, g1, if_pos rfl]
        exact h2
      · refine chain_congr c _ (some r0) r' ?_ ?_ g3
        · intro x hx
          rw [readOlder_extract c (some k) x hn, h2]
          have hxa : x ≠ a := by
            intro hh
            apply ha
            rw [← hh]
            simp only [List.nil_append, List.map_cons, List.mem_cons] at hx ⊢
            rcases hx with h | h
            · right; left; exact h
            · right; right; exact h
          rw [if_neg hxa]
        · intro x hx
          rw [readNewer_extract c (some k) x ho, g1]
          have hr0 : r0 ∉ r' := by
            have := hnd
            simp only [List.nil_append, List.nodup_cons] at this
            exact (this.2).1
          have hxr0 : x ≠ some r0 := by
            intro hh
            rw [hh] at hx
            simp only [List.mem_map] at hx
            obtain ⟨y, hy, hxy⟩ := hx
            cases hxy
            exact hr0 hy
          rw [if_neg hxr0]
  | cons l0 l1 ih =>
    intro a ha hnd hch
    obtain ⟨h1, h2, h3⟩ := hch
    have hsplit := (chain_append c (some l0) l1 (k :: r)).mp h3
    obtain ⟨hcl1, hckr⟩ := hsplit
    obtain ⟨p1, p2, p3⟩ := hckr
    have hl0notin : l0 ∉ l1 ++ k :: r := by
      have := hnd
      rw [List.cons_append, List.nodup_cons] at this
      exact this.1
    refine ⟨?_, ?_, ?_⟩
    · rw [readOlder_extract c (some k) a hn, p2]
      have hane : a ≠ endA (some l0) l1 := by
        intro hh
        apply ha
        have hmem := endA_mem (some l0) l1
        rw [← hh] at hmem
        simp only [List.mem_cons, List.map_cons, List.cons_append, List.map_append,
          List.mem_append, List.mem_map] at hmem ⊢
        rcases hmem with h | h
        · left; exact h
        · right; left; exact h
      rw [if_neg hane]
      exact h1
    · rw [readNewer_extract c (some k) (some l0) ho]
      cases r with
      | nil =>
        rw [hro rfl]
        have : (some l0 : Option K) ≠ none := by simp
        rw [if_neg this]
        exact h2
      | cons r0 r' =>
        obtain ⟨q1, q2, q3⟩ := p3
        rw [q1]
        have hl0r0 : (some l0 : Option K) ≠ some r0 := by
          intro hh
          cases hh
          exact hl0notin (by simp)
        rw [if_neg hl0r0]
        exact h2
    · refine ih (some l0) ?_ ?_ h3
      · intro hh
        simp only [List.mem_map] at hh
        obtain ⟨y, hy, hxy⟩ := hh
        cases hxy
        exact hl0notin hy
      · rw [List.cons_append, List.nodup_cons] at hnd
        exact hnd.2

/-- Effect of `extract` on the full circular structure. -/
theorem links_extract (c : Cache K V) (k : K) (l r : List K)
    (hnd : (l ++ k :: r).Nodup)
    (hl : links c (l ++ k :: r))
    (hks : ∀ x ∈ l ++ k :: r, (alookup c.map x).isSome) :
    links (extract c (some k)) (l ++ r) := by
  obtain ⟨hch, hend, hsn⟩ := hl
  obtain ⟨hcl, hckr⟩ := (chain_append c none l (k :: r)).mp hch
  obtain ⟨p1, p2, p3⟩ := hckr
  have hn : ∀ j, readNewer c (some k) = some j → (alookup c.map j).isSome := by
    intro j hj
    rw [p2] at hj
    have hmem := endA_mem none l
    rw [hj] at hmem
    simp only [List.mem_cons, List.mem_map] at hmem
    rcases hmem with h | ⟨y, hy, hxy⟩
    · cases h
    · injection hxy with hh
      subst hh
      exact hks y (by simp [hy])
  have hro : r = [] → readOlder c (some k) = none := by
    intro hr
    subst hr
    have : endA none (l ++ [k]) = some k := endA_concat none l k
    rw [this] at hend
    exact hend
  have ho : ∀ j, readOlder c (some k) = some j → (alookup c.map j).isSome := by
    intro j hj
    cases r with
    | nil => rw [hro rfl] at hj; cases hj
    | cons r0 r' =>
      obtain ⟨q1, q2, q3⟩ := p3
      rw [q1] at hj
      injection hj with hh
      subst hh
      exact hks r0 (by simp)
  refine ⟨?_, ?_, ?_⟩
  · refine chain_extract_aux c k r hn ho hro l none ?_ hnd hch
    simp
  · cases r with
    | nil =>
      have he : endA none (l ++ ([] : List K)) = endA none l := by
        rw [List.append_nil]
      rw [he, readOlder_extract c (some k) _ hn, p2, if_pos rfl]
      exact hro rfl
    | cons r0 r' =>
      obtain ⟨lk, hlk, hlkmem⟩ := endA_ne_nil_eq_some none (r0 :: r') (by simp)
      have he1 : endA none (l ++ r0 :: r') = some lk := by
        rw [endA_append_ne_nil none l (r0 :: r') (by simp), hlk]
      have he2 : endA none (l ++ k :: r0 :: r') = some lk := by
        rw [endA_append_ne_nil none l (k :: r0 :: r') (by simp),
          endA_cons none k (r0 :: r'),
          endA_ne_nil (some k) none (r0 :: r') (by simp), hlk]
      rw [he1, readOlder_extract c (some k) _ hn, p2]
      have hlkne : (some lk : Option K) ≠ endA none l := by
        intro hh
        have hmem := endA_mem none l
        rw [← hh] at hmem
        simp only [List.mem_cons, List.mem_map] at hmem
        rcases hmem with h | ⟨y, hy, hxy⟩
        · cases h
        · cases hxy
          have : (l ++ k :: r0 :: r').Nodup := hnd
          rw [List.nodup_append] at this
          exact this.2.2 hy (by simp [hlkmem])
      rw [if_neg hlkne]
      rw [he2] at hend
      exact hend
  · rw [readNewer_extract c (some k) none ho]
    cases r with
    | nil =>
      rw [hro rfl, if_pos rfl, p2, List.append_nil]
    | cons r0 r' =>
      obtain ⟨q1, q2, q3⟩ := p3
      rw [q1]
      have : (none : Option K) ≠ some r0 := by simp
      rw [if_neg this, hsn]
      obtain ⟨lk, hlk, hlkmem⟩ := endA_ne_nil_eq_some none (r0 :: r') (by simp)
      rw [endA_append_ne_nil none l (k :: r0 :: r') (by simp),
        endA_cons none k (r0 :: r'), endA_ne_nil (some k) none (r0 :: r') (by simp), hlk,
        endA_append_ne_nil none l (r0 :: r') (by simp), hlk]

theorem wfC_length (c : Cache K V) (ks : List K) (h : wfC c ks) :
    c.map.length = ks.length := by
  obtain ⟨h1, h2, h3, _⟩ := h
  have hperm : List.Perm (keys c) ks := (List.perm_ext_iff_of_nodup h2 h1).mpr h3
  have := hperm.length_eq
  simpa [keys] using this

theorem links_congr (c c' : Cache K V) (ks : List K)
    (hf : ∀ x, x ∈ (none : Option K) :: ks.map some → readOlder c' x = readOlder c x)
    (hg : ∀ x, x ∈ (none : Option K) :: ks.map some → readNewer c' x = readNewer c x)
    (h : links c ks) : links c' ks := by
  obtain ⟨hch, hend, hsn⟩ := h
  refine ⟨?_, ?_, ?_⟩
  · exact chain_congr c c' none ks hf (fun x hx => hg x (List.mem_cons_of_mem _ hx)) hch
  · rw [hf (endA none ks) (endA_mem none ks)]
    exact hend
  · rw [hg none (by simp)]
    exact hsn

theorem readOlder_aerase (c : Cache K V) (k : K) (x : Option K) (hx : x ≠ some k) :
    readOlder { c with map := aerase c.map k } x = readOlder c x := by
  cases x with
  | none => rfl
  | some y =>
    have hy : y ≠ k := fun hh => hx (by rw [hh])
    simp [readOlder, alookup_aerase_ne _ _ _ hy]

theorem readNewer_aerase (c : Cache K V) (k : K) (x : Option K) (hx : x ≠ some k) :
    readNewer { c with map := aerase c.map k } x = readNewer c x := by
  cases x with
  | none => rfl
  | some y =>
    have hy : y ≠ k := fun hh => hx (by rw [hh])
    simp [readNewer, alookup_aerase_ne _ _ _ hy]

theorem readOlder_consMap_fresh (c : Cache K V) (k : K) (v : V)
    (h : alookup c.map k = none) (x : Option K) :
    readOlder { c with map := (k, Node.mk (some v) none none) :: c.map } x =
      readOlder c x := by
  cases x with
  | none => rfl
  | some y =>
    by_cases hy : y = k
    · subst hy
      simp [readOlder, alookup, h]
    · have : ¬ (k = y) := fun hh => hy hh.symm
      simp [readOlder, alookup, this]

theorem readNewer_consMap_fresh (c : Cache K V) (k : K) (v : V)
    (h : alookup c.map k = none) (x : Option K) :
    readNewer { c with map := (k, Node.mk (some v) none none) :: c.map } x =
      readNewer c x := by
  cases x with
  | none => rfl
  | some y =>
    by_cases hy : y = k
    · subst hy
      simp [readNewer, alookup, h]
    · have : ¬ (k = y) := fun hh => hy hh.symm
      simp [readNewer, alookup, this]

theorem mem_keys_aerase {A : Type} (m : List (K × A)) (k x : K) :
    x ∈ (aerase m k).map Prod.fst ↔ (x ≠ k ∧ x ∈ m.map Prod.fst) := by
  by_cases hx : x = k
  · subst hx
    simp only [ne_eq, not_true_eq_false, false_and, iff_false]
    rw [← alookup_isSome_iff]
    simp [alookup_aerase_self]
  · rw [← alookup_isSome_iff, ← alookup_isSome_iff m x, alookup_aerase_ne _ _ _ hx]
    simp [hx]

theorem limit_removeKey (c : Cache K V) (k : K) : (removeKey c k).limit = c.limit := by
  simp [removeKey, limit_extract]

theorem pending_removeKey (c : Cache K V) (k : K) :
    (removeKey c k).pending = c.pending := by
  simp [removeKey, pending_extract]

theorem limit_evictLru (c : Cache K V) : (evictLru c).limit = c.limit := by
  unfold evictLru
  cases c.sNewer <;> simp [limit_removeKey]

theorem pending_evictLru (c : Cache K V) : (evictLru c).pending = c.pending := by
  unfold evictLru
  cases c.sNewer <;> simp [pending_removeKey]

theorem limit_enforceLimitAux (fuel : Nat) (c : Cache K V) :
    (enforceLimitAux fuel c).limit = c.limit := by
  induction fuel generalizing c with
  | zero => rfl
  | succ n ih =>
    unfold enforceLimitAux
    by_cases h : c.map.length > c.limit
    · rw [if_pos h, ih, limit_evictLru]
    · rw [if_neg h]

theorem pending_enforceLimitAux (fuel : Nat) (c : Cache K V) :
    (enforceLimitAux fuel c).pending = c.pending := by
  induction fuel generalizing c with
  | zero => rfl
  | succ n ih =>
    unfold enforceLimitAux
    by_cases h : c.map.length > c.limit
    · rw [if_pos h, ih, pending_evictLru]
    · rw [if_neg h]

/-- `remove` (extract + index erase) turns the walk `l ++ k :: r` into
`l ++ r` and preserves well-formedness. -/
theorem wfC_removeKey (c : Cache K V) (k : K) (l r : List K)
    (hw : wfC c (l ++ k :: r)) : wfC (removeKey c k) (l ++ r) := by
  obtain ⟨hnd, hknd, hkiff, hlinks⟩ := hw
  have hks : ∀ x ∈ l ++ k :: r, (alookup c.map x).isSome := by
    intro x hx
    rw [← mem_keys_iff_isSome] at *
    exact (hkiff x).mpr hx
  have hexts := links_extract c k l r hnd hlinks hks
  have hkl : k ∉ l := by
    rw [List.nodup_append] at hnd
    intro hh
    exact hnd.2.2 hh (by simp)
  have hkr : k ∉ r := by
    rw [List.nodup_append] at hnd
    have := hnd.2.1
    rw [List.nodup_cons] at this
    exact this.1
  refine ⟨?_, ?_, ?_, ?_⟩
  · have : (l ++ r).Sublist (l ++ k :: r) :=
      List.Sublist.append_left (List.sublist_cons_self k r) l
    exact hnd.sublist this
  · show ((aerase (extract c (some k)).map k).map Prod.fst).Nodup
    refine keysNodup_aerase _ _ ?_
    have : keys (extract c (some k)) = keys c := keys_extract c (some k)
    rw [show (extract c (some k)).map.map Prod.fst = keys (extract c (some k)) from rfl, this]
    exact hknd
  · intro x
    show x ∈ (aerase (extract c (some k)).map k).map Prod.fst ↔ _
    rw [mem_keys_aerase]
    have : keys (extract c (some k)) = keys c := keys_extract c (some k)
    rw [show (extract c (some k)).map.map Prod.fst = keys (extract c (some k)) from rfl, this]
    constructor
    · rintro ⟨hxk, hxm⟩
      have := (hkiff x).mp hxm
      simp only [List.mem_append, List.mem_cons] at this ⊢
      rcases this with h | h | h
      · exact Or.inl h
      · exact absurd h hxk
      · exact Or.inr h
    · intro hx
      have hxk : x ≠ k := by
        intro hh
        subst hh
        simp only [List.mem_append] at hx
        rcases hx with h | h
        · exact hkl h
        · exact hkr h
      refine ⟨hxk, (hkiff x).mpr ?_⟩
      simp only [List.mem_append, List.mem_cons] at hx ⊢
      tauto
  · refine links_congr (extract c (some k)) _ (l ++ r) ?_ ?_ hexts
    · intro x hx
      refine readOlder_aerase _ k x ?_
      intro hh
      subst hh
      simp only [List.mem_cons, List.mem_map, List.mem_append] at hx
      rcases hx with h | ⟨y, hy, hxy⟩
      · cases h
      · injection hxy with hh2
        subst hh2
        rcases hy with h | h
        · exact hkl h
        · exact hkr h
    · intro x hx
      refine readNewer_aerase _ k x ?_
      intro hh
      subst hh
      simp only [List.mem_cons, List.mem_map, List.mem_append] at hx
      rcases hx with h | ⟨y, hy, hxy⟩
      · cases h
      · injection hxy with hh2
        subst hh2
        rcases hy with h | h
        · exact hkl h
        · exact hkr h

/-- `touch` moves the key to the front of the walk. -/
theorem wfC_touch (c : Cache K V) (k : K) (l r : List K)
    (hw : wfC c (l ++ k :: r)) : wfC (touch c (some k)) (k :: (l ++ r)) := by
  obtain ⟨hnd, hknd, hkiff, hlinks⟩ := hw
  have hks : ∀ x ∈ l ++ k :: r, (alookup c.map x).isSome := by
    intro x hx
    rw [← mem_keys_iff_isSome] at *
    exact (hkiff x).mpr hx
  have hexts := links_extract c k l r hnd hlinks hks
  have hkl : k ∉ l := by
    rw [List.nodup_append] at hnd
    intro hh
    exact hnd.2.2 hh (by simp)
  have hkr : k ∉ r := by
    rw [List.nodup_append] at hnd
    have := hnd.2.1
    rw [List.nodup_cons] at this
    exact this.1
  have hndlr : (l ++ r).Nodup := by
    have : (l ++ r).Sublist (l ++ k :: r) :=
      List.Sublist.append_left (List.sublist_cons_self k r) l
    exact hnd.sublist this
  have hklr : k ∉ l ++ r := by
    simp only [List.mem_append]
    rintro (h | h)
    · exact hkl h
    · exact hkr h
  have hkeq : keys (extract c (some k)) = keys c := keys_extract c (some k)
  have hinss := links_insertAtHead (extract c (some k)) k (l ++ r) hexts hndlr hklr
    (by
      rw [← mem_keys_iff_isSome, hkeq]
      exact (hkiff k).mpr (by simp))
    (by
      intro x hx
      rw [← mem_keys_iff_isSome, hkeq]
      refine (hkiff x).mpr ?_
      simp only [List.mem_append, List.mem_cons] at hx ⊢
      tauto)
  refine ⟨List.nodup_cons.mpr ⟨hklr, hndlr⟩, ?_, ?_, hinss⟩
  · rw [keys_touch]
    exact hknd
  · intro x
    rw [keys_touch]
    rw [hkiff x]
    simp only [List.mem_append, List.mem_cons]
    tauto

/-- `evict_lru` drops the last element of the walk. -/
theorem wfC_evictLru (c : Cache K V) (ks : List K) (hw : wfC c ks) :
    wfC (evictLru c) ks.dropLast := by
  rcases ks.eq_nil_or_concat with rfl | ⟨L, klast, hconc⟩
  · have hsn : c.sNewer = none := hw.2.2.2.2.2
    unfold evictLru
    rw [hsn]
    exact hw
  · rw [List.concat_eq_append] at hconc
    subst hconc
    have hsn : c.sNewer = some klast := by
      have := hw.2.2.2.2.2
      rw [endA_concat] at this
      exact this
    unfold evictLru
    rw [hsn, List.dropLast_concat]
    have := wfC_removeKey c klast L [] (by simpa using hw)
    simpa using this

/-- The eviction loop truncates the walk to the capacity, provided the
fuel covers the excess. -/
theorem wfC_enforceLimitAux (fuel : Nat) (c : Cache K V) (ks : List K)
    (hw : wfC c ks) (hfuel : ks.length ≤ c.limit + fuel) :
    wfC (enforceLimitAux fuel c) (ks.take c.limit) := by
  induction fuel generalizing c ks with
  | zero =>
    have hlen : ks.length ≤ c.limit := by omega
    unfold enforceLimitAux
    rw [List.take_of_length_le hlen]
    exact hw
  | succ n ih =>
    unfold enforceLimitAux
    by_cases h : c.map.length > c.limit
    · rw [if_pos h]
      have hlen := wfC_length c ks hw
      have hlt : c.limit < ks.length := by omega
      have hev := wfC_evictLru c ks hw
      have hlim : (evictLru c).limit = c.limit := limit_evictLru c
      have := ih (evictLru c) ks.dropLast hev
        (by
          rw [List.length_dropLast, hlim]
          omega)
      rw [hlim] at this
      have htake : ks.dropLast.take c.limit = ks.take c.limit := by
        rw [List.dropLast_eq_take, List.take_take]
        have : min c.limit (ks.length - 1) = c.limit := by omega
        rw [this]
      rw [htake] at this
      exact this
    · rw [if_neg h]
      have hlen := wfC_length c ks hw
      have : ks.length ≤ c.limit := by omega
      rw [List.take_of_length_le this]
      exact hw

theorem wfC_enforceLimit (c : Cache K V) (ks : List K) (hw : wfC c ks) :
    wfC (enforceLimit c) (ks.take c.limit) := by
  unfold enforceLimit
  refine wfC_enforceLimitAux c.map.length c ks hw ?_
  rw [wfC_length c ks hw]
  omega

/-- `flush` resets to the empty walk. -/
theorem wfC_flush (c : Cache K V) : wfC (flush c) [] := by
  refine ⟨List.nodup_nil, ?_, ?_, trivial, rfl, rfl⟩
  · show (([] : List (K × Node K V)).map Prod.fst).Nodup
    simp
  · intro x
    show x ∈ ([] : List (K × Node K V)).map Prod.fst ↔ x ∈ ([] : List K)
    simp

/-- `add_entry` on a fresh key: the walk becomes `k :: ks` truncated to
the capacity by the eviction loop. -/
theorem wfC_addEntry (c : Cache K V) (k : K) (v : V) (ks : List K)
    (hw : wfC c ks) (hk : alookup c.map k = none) :
    wfC (addEntry c k v).1 ((k :: ks).take c.limit) := by
  obtain ⟨hnd, hknd, hkiff, hlinks⟩ := hw
  have hknotin : k ∉ keys c := by
    simp only [keys]
    rw [← alookup_isSome_iff]
    simp [hk]
  have hkks : k ∉ ks := fun hh => hknotin ((hkiff k).mpr hh)
  have hemp : aemplace c.map k (Node.mk (some v) none none) =
      (k, Node.mk (some v) none none) :: c.map := by
    unfold aemplace
    rw [hk]
  show wfC (enforceLimit (insertAtHead
    { c with map := aemplace c.map k { value := some v, older := none, newer := none } }
    (some k))) _
  rw [hemp]
  set c1 : Cache K V := { c with map := (k, Node.mk (some v) none none) :: c.map } with hc1
  have hl1 : links c1 ks := by
    refine links_congr c c1 ks ?_ ?_ hlinks
    · intro x _; exact readOlder_consMap_fresh c k v hk x
    · intro x _; exact readNewer_consMap_fresh c k v hk x
  have hmem1 : (alookup c1.map k).isSome := by
    show (alookup ((k, Node.mk (some v) none none) :: c.map) k).isSome
    simp [alookup]
  have hks1 : ∀ x ∈ ks, (alookup c1.map x).isSome := by
    intro x hx
    have hxk : x ∈ keys c := (hkiff x).mpr hx
    rw [← mem_keys_iff_isSome]
    show x ∈ ((k, Node.mk (some v) none none) :: c.map).map Prod.fst
    simp only [List.map_cons, List.mem_cons]
    exact Or.inr hxk
  have hins := links_insertAtHead c1 k ks hl1 hnd hkks hmem1 hks1
  have hw2 : wfC (insertAtHead c1 (some k)) (k :: ks) := by
    refine ⟨List.nodup_cons.mpr ⟨hkks, hnd⟩, ?_, ?_, hins⟩
    · rw [show keys (insertAtHead c1 (some k)) = keys c1 from keys_insertAtHead c1 (some k)]
      show ((k, Node.mk (some v) none none) :: c.map).map Prod.fst |>.Nodup
      simp only [List.map_cons, List.nodup_cons]
      exact ⟨hknotin, hknd⟩
    · intro x
      rw [show keys (insertAtHead c1 (some k)) = keys c1 from keys_insertAtHead c1 (some k)]
      show x ∈ ((k, Node.mk (some v) none none) :: c.map).map Prod.fst ↔ _
      simp only [List.map_cons, List.mem_cons]
      rw [show c.map.map Prod.fst = keys c from rfl, hkiff x]
  have := wfC_enforceLimit (insertAtHead c1 (some k)) (k :: ks) hw2
  rw [show (insertAtHead c1 (some k)).limit = c.limit from by
    rw [limit_insertAtHead]] at this
  exact this

end Chain

/-! ## The global invariant -/

section Invariant

variable {K V : Type} [DecidableEq K]

theorem InvB_mono (c : Cache K V) (b : Option K) (h : InvB c none) : InvB c b := by
  obtain ⟨h1, h2, h3⟩ := h
  exact ⟨h1, fun x hx hm => absurd (h2 x hx hm) (by simp), h3⟩

theorem isSome_alookup_pPush (p : List (K × List (RCb K))) (k : K) (r : RCb K) (x : K) :
    (alookup (pPush p k r) x).isSome = (alookup p x).isSome := by
  unfold pPush
  by_cases hx : x = k
  · subst hx
    rw [alookup_aupdate_self]
    cases alookup p x <;> simp
  · rw [alookup_aupdate_ne _ _ _ _ hx]

theorem pEmplace_of_isSome (p : List (K × List (RCb K))) (k : K)
    (h : (alookup p k).isSome) : pEmplace p k = p := by
  unfold pEmplace
  obtain ⟨rs, hrs⟩ := Option.isSome_iff_exists.mp h
  rw [hrs]

theorem pEmplace_of_none (p : List (K × List (RCb K))) (k : K)
    (h : alookup p k = none) : pEmplace p k = (k, []) :: p := by
  unfold pEmplace
  rw [h]

theorem wfC_pendingSet (c : Cache K V) (p : List (K × List (RCb K))) (ks : List K)
    (h : wfC c ks) : wfC { c with pending := p } ks := by
  obtain ⟨h1, h2, h3, h4⟩ := h
  refine ⟨h1, h2, h3, ?_⟩
  refine links_congr c _ ks ?_ ?_ h4
  · intro x _; cases x <;> rfl
  · intro x _; cases x <;> rfl

theorem isSome_alookup_touch (c : Cache K V) (a : Option K) (x : K) :
    (alookup (touch c a).map x).isSome = (alookup c.map x).isSome := by
  rw [← Bool.coe_iff_coe, alookup_isSome_iff, alookup_isSome_iff]
  rw [show (touch c a).map.map Prod.fst = keys (touch c a) from rfl, keys_touch]
  rfl

theorem length_aerase_le {A : Type} (m : List (K × A)) (k : K) :
    (aerase m k).length ≤ m.length := by
  induction m with
  | nil => simp [aerase]
  | cons hd t ih =>
    obtain ⟨k', a⟩ := hd
    by_cases hk : k' = k
    · simp only [aerase, if_pos hk]
      exact Nat.le_succ_of_le ih
    · simp only [aerase, if_neg hk, List.length_cons]
      omega

theorem length_map_removeKey_le (c : Cache K V) (k : K) :
    (removeKey c k).map.length ≤ c.map.length := by
  show (aerase (extract c (some k)).map k).length ≤ _
  calc (aerase (extract c (some k)).map k).length
      ≤ (extract c (some k)).map.length := length_aerase_le _ _
    _ = c.map.length := length_map_extract c (some k)

theorem isSome_alookup_removeKey (c : Cache K V) (k x : K)
    (h : (alookup (removeKey c k).map x).isSome) : (alookup c.map x).isSome := by
  have h2 : (alookup (aerase (extract c (some k)).map k) x).isSome := h
  by_cases hx : x = k
  · rw [hx, alookup_aerase_self] at h2
    cases h2
  · rw [alookup_aerase_ne _ _ _ hx] at h2
    have h3 : x ∈ (extract c (some k)).map.map Prod.fst := (alookup_isSome_iff _ _).mp h2
    rw [show (extract c (some k)).map.map Prod.fst = keys (extract c (some k)) from rfl,
      keys_extract] at h3
    exact (alookup_isSome_iff _ _).mpr h3

theorem limit_flush (c : Cache K V) : (flush c).limit = c.limit := rfl

theorem limit_invalidate (c : Cache K V) (k : K) : (invalidate c k).limit = c.limit := by
  unfold invalidate
  cases alookup c.map k <;> simp [limit_removeKey]

theorem limit_addEntry (c : Cache K V) (k : K) (v : V) :
    (addEntry c k v).1.limit = c.limit := by
  show (enforceLimit _).limit = c.limit
  rw [show enforceLimit (insertAtHead
    { c with map := aemplace c.map k { value := some v, older := none, newer := none } }
    (some k)) = enforceLimitAux _ _ from rfl]
  rw [limit_enforceLimitAux, limit_insertAtHead]

theorem pending_addEntry (c : Cache K V) (k : K) (v : V) :
    (addEntry c k v).1.pending = c.pending := by
  show (enforceLimit _).pending = c.pending
  rw [show enforceLimit (insertAtHead
    { c with map := aemplace c.map k { value := some v, older := none, newer := none } }
    (some k)) = enforceLimitAux _ _ from rfl]
  rw [pending_enforceLimitAux, pending_insertAtHead]

theorem limit_getMiss (c : Cache K V) (k : K) (r : RCb K) :
    (getMiss c k r).1.limit = c.limit := by
  unfold getMiss
  cases alookup c.pending k <;> rfl

theorem map_getMiss (c : Cache K V) (k : K) (r : RCb K) :
    (getMiss c k r).1.map = c.map := by
  unfold getMiss
  cases alookup c.pending k <;> rfl

theorem limit_invokeReply (cb : RCb K) :
    ∀ (c : Cache K V) (cur : Option K) (err : Nat),
      (invokeReply c cb cur err).1.limit = c.limit := by
  induction cb with
  | pure i => intro c cur err; rfl
  | thenGet i k cont ih =>
    intro c cur err
    show (match alookup c.map k with
      | some _ => invokeReply (touch c (some k)) cont (some k) noError
      | none => getMiss c k cont).1.limit = c.limit
    cases alookup c.map k with
    | some nd => rw [ih, limit_touch]
    | none => rw [limit_getMiss]

theorem limit_get (c : Cache K V) (k : K) (reply : RCb K) :
    (get c k reply).1.limit = c.limit := by
  unfold get
  cases alookup c.map k with
  | some nd => rw [limit_invokeReply, limit_touch]
  | none => rw [limit_getMiss]

theorem limit_drain (rs : List (RCb K)) :
    ∀ (c : Cache K V) (cur : Option K) (err : Nat),
      (drain c rs cur err).1.limit = c.limit := by
  induction rs with
  | nil => intro c cur err; rfl
  | cons r t ih =>
    intro c cur err
    show (drain (invokeReply c r cur err).1 t cur err).1.limit = c.limit
    rw [ih, limit_invokeReply]

theorem limit_complete (c : Cache K V) (k : K) (v : Option V) (err : Nat) :
    (complete c k v err).1.limit = c.limit := by
  unfold complete
  cases v with
  | none => simp [limit_drain]
  | some val => simp [limit_drain, limit_addEntry]

theorem limit_applyOp (c : Cache K V) (op : Op K V) :
    (applyOp c op).limit = c.limit := by
  cases op with
  | get k r => exact limit_get c k r
  | find k => rfl
  | invalidate k => exact limit_invalidate c k
  | flush => rfl
  | complete k v e =>
    show (match alookup c.pending k with
      | some _ => (complete c k v e).1
      | none => c).limit = c.limit
    cases alookup c.pending k with
    | some rs => exact limit_complete c k v e
    | none => rfl

theorem limit_runOps (ops : List (Op K V)) :
    ∀ c : Cache K V, (runOps c ops).limit = c.limit := by
  induction ops with
  | nil => intro c; rfl
  | cons op t ih =>
    intro c
    show (runOps (applyOp c op) t).limit = c.limit
    rw [ih, limit_applyOp]

theorem InvB_touch (c : Cache K V) (k : K) (bad : Option K)
    (h : InvB c bad) (hk : (alookup c.map k).isSome) : InvB (touch c (some k)) bad := by
  obtain ⟨⟨ks, hw⟩, hd, hlen⟩ := h
  have hkks : k ∈ ks := by
    have : k ∈ keys c := (alookup_isSome_iff _ _).mp hk
    exact (hw.2.2.1 k).mp this
  obtain ⟨l, r, rfl⟩ := List.append_of_mem hkks
  refine ⟨⟨k :: (l ++ r), wfC_touch c k l r hw⟩, ?_, ?_⟩
  · intro x hx hm
    rw [pending_touch] at hx
    rw [isSome_alookup_touch] at hm
    exact hd x hx hm
  · rw [length_map_touch, limit_touch]
    exact hlen

theorem InvB_getMiss (c : Cache K V) (k : K) (r : RCb K) (bad : Option K)
    (h : InvB c bad) (hm : alookup c.map k = none) : InvB (getMiss c k r).1 bad := by
  obtain ⟨⟨ks, hw⟩, hd, hlen⟩ := h
  unfold getMiss
  cases hp : alookup c.pending k with
  | some rs =>
    refine ⟨⟨ks, wfC_pendingSet c _ ks hw⟩, ?_, hlen⟩
    intro x hx hmx
    have hx2 : (alookup (pPush c.pending k r) x).isSome := hx
    rw [isSome_alookup_pPush] at hx2
    exact hd x hx2 hmx
  | none =>
    refine ⟨⟨ks, wfC_pendingSet c _ ks hw⟩, ?_, hlen⟩
    intro x hx hmx
    have hx2 : (alookup (pPush (pEmplace c.pending k) k r) x).isSome := hx
    rw [isSome_alookup_pPush, pEmplace_of_none c.pending k hp] at hx2
    by_cases hxk : x = k
    · rw [hxk, hm] at hmx
      cases hmx
    · have heq : alookup ((k, ([] : List (RCb K))) :: c.pending) x = alookup c.pending x := by
        have : ¬ (k = x) := fun hh => hxk hh.symm
        simp [alookup, this]
      rw [heq] at hx2
      exact hd x hx2 hmx

theorem InvB_invokeReply (cb : RCb K) :
    ∀ (c : Cache K V) (cur : Option K) (err : Nat) (bad : Option K),
      InvB c bad → InvB (invokeReply c cb cur err).1 bad := by
  induction cb with
  | pure i => intro c cur err bad h; exact h
  | thenGet i k cont ih =>
    intro c cur err bad h
    show InvB (match alookup c.map k with
      | some _ => invokeReply (touch c (some k)) cont (some k) noError
      | none => getMiss c k cont).1 bad
    cases hm : alookup c.map k with
    | some nd => exact ih _ _ _ _ (InvB_touch c k bad h (by simp [hm]))
    | none => exact InvB_getMiss c k cont bad h hm

theorem InvB_get (c : Cache K V) (k : K) (reply : RCb K) (bad : Option K)
    (h : InvB c bad) : InvB (get c k reply).1 bad := by
  unfold get
  cases hm : alookup c.map k with
  | some nd => exact InvB_invokeReply reply _ _ _ _ (InvB_touch c k bad h (by simp [hm]))
  | none => exact InvB_getMiss c k reply bad h hm

theorem InvB_drain (rs : List (RCb K)) :
    ∀ (c : Cache K V) (cur : Option K) (err : Nat) (bad : Option K),
      InvB c bad → InvB (drain c rs cur err).1 bad := by
  induction rs with
  | nil => intro c _ _ _ h; exact h
  | cons r t ih =>
    intro c cur err bad h
    show InvB (drain (invokeReply c r cur err).1 t cur err).1 bad
    exact ih _ _ _ _ (InvB_invokeReply r _ _ _ _ h)

theorem InvB_addEntry (c : Cache K V) (k : K) (v : V)
    (h : InvB c none) (hm : alookup c.map k = none) :
    InvB (addEntry c k v).1 (some k) := by
  obtain ⟨⟨ks, hw⟩, hd, hlen⟩ := h
  have hw2 := wfC_addEntry c k v ks hw hm
  refine ⟨⟨(k :: ks).take c.limit, hw2⟩, ?_, ?_⟩
  · intro x hx hmx
    rw [pending_addEntry] at hx
    have hxm : x ∈ keys (addEntry c k v).1 := (alookup_isSome_iff _ _).mp hmx
    have hxks : x ∈ (k :: ks).take c.limit := (hw2.2.2.1 x).mp hxm
    have hxkks : x ∈ k :: ks := List.take_subset _ _ hxks
    rcases List.mem_cons.mp hxkks with h1 | h1
    · rw [h1]
    · have hmo : (alookup c.map x).isSome := by
        rw [← mem_keys_iff_isSome]
        exact (hw.2.2.1 x).mpr h1
      exact absurd (hd x hx hmo) (by simp)
  · have hlen2 := wfC_length _ _ hw2
    rw [limit_addEntry, hlen2]
    exact List.length_take_le _ _

theorem InvB_erasePending (c : Cache K V) (k : K) (h : InvB c (some k)) :
    InvB { c with pending := aerase c.pending k } none := by
  obtain ⟨⟨ks, hw⟩, hd, hlen⟩ := h
  refine ⟨⟨ks, wfC_pendingSet c _ ks hw⟩, ?_, hlen⟩
  intro x hx hmx
  have hx2 : (alookup (aerase c.pending k) x).isSome := hx
  by_cases hxk : x = k
  · rw [hxk, alookup_aerase_self] at hx2
    cases hx2
  · rw [alookup_aerase_ne _ _ _ hxk] at hx2
    have hh := hd x hx2 hmx
    injection hh with hh2
    exact absurd hh2.symm hxk

theorem InvB_complete (c : Cache K V) (k : K) (v : Option V) (err : Nat)
    (h : InvB c none) (hp : (alookup c.pending k).isSome) :
    InvB (complete c k v err).1 none := by
  cases v with
  | some val =>
    have hm : alookup c.map k = none := by
      cases hmm : alookup c.map k with
      | none => rfl
      | some nd =>
        have := h.2.1 k hp (by simp [hmm])
        cases this
    exact InvB_erasePending _ k (InvB_drain _ _ _ _ _ (InvB_addEntry c k val h hm))
  | none =>
    exact InvB_erasePending _ k (InvB_drain _ _ _ _ _ (InvB_mono c (some k) h))

theorem InvB_invalidate (c : Cache K V) (k : K) (h : InvB c none) :
    InvB (invalidate c k) none := by
  unfold invalidate
  cases hm : alookup c.map k with
  | none => exact h
  | some nd =>
    obtain ⟨⟨ks, hw⟩, hd, hlen⟩ := h
    have hkks : k ∈ ks :=
      (hw.2.2.1 k).mp ((alookup_isSome_iff _ _).mp (by simp [hm]))
    obtain ⟨l, r, rfl⟩ := List.append_of_mem hkks
    refine ⟨⟨l ++ r, wfC_removeKey c k l r hw⟩, ?_, ?_⟩
    · intro x hx hmx
      rw [pending_removeKey] at hx
      exact hd x hx (isSome_alookup_removeKey c k x hmx)
    · rw [limit_removeKey]
      exact le_trans (length_map_removeKey_le c k) hlen

theorem InvB_flush (c : Cache K V) (h : InvB c none) : InvB (flush c) none := by
  refine ⟨⟨[], wfC_flush c⟩, ?_, ?_⟩
  · intro x hx hmx
    have hmx2 : (alookup ([] : List (K × Node K V)) x).isSome := hmx
    simp [alookup] at hmx2
  · show ([] : List (K × Node K V)).length ≤ c.limit
    simp

theorem InvB_applyOp (c : Cache K V) (op : Op K V) (h : InvB c none) :
    InvB (applyOp c op) none := by
  cases op with
  | get k r => exact InvB_get c k r none h
  | find k => exact h
  | invalidate k => exact InvB_invalidate c k h
  | flush => exact InvB_flush c h
  | complete k v e =>
    show InvB (match alookup c.pending k with
      | some _ => (complete c k v e).1
      | none => c) none
    cases hp : alookup c.pending k with
    | some rs => exact InvB_complete c k v e h (by simp [hp])
    | none => exact h

theorem InvB_empty (limit : Nat) : InvB (emptyCache K V limit) none := by
  refine ⟨⟨[], ?_⟩, ?_, ?_⟩
  · exact ⟨List.nodup_nil, by simp [keys, emptyCache],
      fun x => by simp [keys, emptyCache], trivial, rfl, rfl⟩
  · intro x hx hm
    have : (alookup ([] : List (K × List (RCb K))) x).isSome := hx
    simp [alookup] at this
  · show ([] : List (K × Node K V)).length ≤ limit
    simp

theorem InvB_runOps (ops : List (Op K V)) :
    ∀ c : Cache K V, InvB c none → InvB (runOps c ops) none := by
  induction ops with
  | nil => intro c h; exact h
  | cons op t ih =>
    intro c h
    show InvB (runOps (applyOp c op) t) none
    exact ih _ (InvB_applyOp c op h)

/-- From well-formedness, the pointwise linkage of every stored entry:
`e.newer_->older_ == e` and `e.older_->newer_ == e`. -/
theorem wfC_linkage (c : Cache K V) (ks : List K) (hw : wfC c ks) (k : K)
    (hk : k ∈ ks) :
    readOlder c (readNewer c (some k)) = some k ∧
    readNewer c (readOlder c (some k)) = some k := by
  obtain ⟨hnd, hknd, hkiff, hch, hend, hsn⟩ := hw
  obtain ⟨l, r, rfl⟩ := List.append_of_mem hk
  obtain ⟨hcl, hckr⟩ := (chain_append c none l (k :: r)).mp hch
  obtain ⟨p1, p2, p3⟩ := hckr
  constructor
  · rw [p2]
    exact p1
  · cases r with
    | nil =>
      have he : endA none (l ++ [k]) = some k := endA_concat none l k
      rw [he] at hend hsn
      rw [hend]
      exact hsn
    | cons r0 r' =>
      obtain ⟨q1, q2, q3⟩ := p3
      rw [q1]
      exact q2

end Invariant

/-! ## Behavioural computation lemmas -/

section Behaviour

variable {K V : Type} [DecidableEq K]

theorem wfC_empty (limit : Nat) : wfC (emptyCache K V limit) [] := by
  exact ⟨List.nodup_nil, by simp [keys, emptyCache],
    fun x => by simp [keys, emptyCache], trivial, rfl, rfl⟩

theorem get_hit_eq (c : Cache K V) (k : K) (reply : RCb K) (nd : Node K V)
    (h : alookup c.map k = some nd) :
    get c k reply = invokeReply (touch c (some k)) reply (some k) noError := by
  unfold get
  rw [h]

theorem get_miss_new_eq (c : Cache K V) (k : K) (reply : RCb K)
    (hm : alookup c.map k = none) (hp : alookup c.pending k = none) :
    get c k reply =
      ({ c with pending := (k, [reply]) :: c.pending }, [Event.fetchInvoked k]) := by
  simp [get, getMiss, hm, hp, pPush, pEmplace, aupdate]

theorem get_miss_pending_eq (c : Cache K V) (k : K) (reply : RCb K)
    (rs : List (RCb K)) (hm : alookup c.map k = none)
    (hp : alookup c.pending k = some rs) :
    get c k reply = ({ c with pending := pPush c.pending k reply }, []) := by
  simp [get, getMiss, hm, hp]

theorem snd_addEntry (c : Cache K V) (k : K) (v : V) :
    (addEntry c k v).2 = some k := rfl

theorem drain_pures (c : Cache K V) (ids : List Nat) (cur : Option K) (err : Nat) :
    drain c (ids.map RCb.pure) cur err =
      (c, ids.map fun i => Event.replyInvoked i cur err) := by
  induction ids with
  | nil => rfl
  | cons i t ih =>
    show drain c (RCb.pure i :: t.map RCb.pure) cur err = _
    simp only [drain, invokeReply, ih, List.map_cons]
    rfl

theorem sOlder_touch (c : Cache K V) (a : Option K) : (touch c a).sOlder = a := rfl

theorem enforceLimitAux_noop (fuel : Nat) (c : Cache K V)
    (h : ¬ (c.map.length > c.limit)) : enforceLimitAux fuel c = c := by
  cases fuel with
  | zero => rfl
  | succ n => simp [enforceLimitAux, h]

theorem invokeReply_thenGet_hit (c : Cache K V) (i : Nat) (k : K) (cont : RCb K)
    (cur : Option K) (err : Nat) (nd : Node K V) (h : alookup c.map k = some nd) :
    invokeReply c (RCb.thenGet i k cont) cur err =
      ((invokeReply (touch c (some k)) cont (some k) noError).1,
        Event.replyInvoked i cur err ::
          (invokeReply (touch c (some k)) cont (some k) noError).2) := by
  simp [invokeReply, h]

theorem invokeReply_thenGet_missPending (c : Cache K V) (i : Nat) (k : K) (cont : RCb K)
    (cur : Option K) (err : Nat) (rs : List (RCb K))
    (hm : alookup c.map k = none) (hp : alookup c.pending k = some rs) :
    invokeReply c (RCb.thenGet i k cont) cur err =
      ({ c with pending := pPush c.pending k cont }, [Event.replyInvoked i cur err]) := by
  simp [invokeReply, hm, getMiss, hp]

theorem keys_invokeReply (cb : RCb K) :
    ∀ (c : Cache K V) (cur : Option K) (err : Nat),
      keys (invokeReply c cb cur err).1 = keys c := by
  induction cb with
  | pure i => intro c cur err; rfl
  | thenGet i k cont ih =>
    intro c cur err
    show keys (match alookup c.map k with
      | some _ => invokeReply (touch c (some k)) cont (some k) noError
      | none => getMiss c k cont).1 = keys c
    cases alookup c.map k with
    | some nd => rw [ih, keys_touch]
    | none =>
      show keys (getMiss c k cont).1 = keys c
      unfold keys
      rw [map_getMiss]

theorem keys_drain (rs : List (RCb K)) :
    ∀ (c : Cache K V) (cur : Option K) (err : Nat),
      keys (drain c rs cur err).1 = keys c := by
  induction rs with
  | nil => intro c cur err; rfl
  | cons r t ih =>
    intro c cur err
    show keys (drain (invokeReply c r cur err).1 t cur err).1 = keys c
    rw [ih, keys_invokeReply]

theorem traverseFrom_chain (c : Cache K V) :
    ∀ (ks : List K) (a : Option K), chain c a ks →
      traverseFrom c ks.length (readOlder c a) = ks := by
  intro ks
  induction ks with
  | nil =>
    intro a h
    rfl
  | cons k t ih =>
    intro a h
    obtain ⟨h1, h2, h3⟩ := h
    show traverseFrom c (t.length + 1) (readOlder c a) = k :: t
    rw [h1]
    rw [show traverseFrom c (t.length + 1) (some k) =
      k :: traverseFrom c t.length (readOlder c (some k)) from rfl]
    rw [ih (some k) h3]

/-- On a well-formed cache, iterating from `cbegin()` to `cend()` yields
exactly the walk. -/
theorem toList_eq_of_wfC (c : Cache K V) (ks : List K) (hw : wfC c ks) :
    toList c = ks := by
  have hch := hw.2.2.2.1
  have hlen := wfC_length c ks hw
  show traverseFrom c c.map.length c.sOlder = ks
  rw [hlen]
  exact traverseFrom_chain c ks none hch

/-- One `get`+successful-completion insertion step of `insertSeq`,
described in full: the walk becomes the new key followed by the old walk,
truncated to the capacity by the eviction loop. -/
theorem insertSeq_step (c : Cache K V) (k : K) (v : V) (ks : List K)
    (hw : wfC c ks) (hpend : c.pending = []) (hk : k ∉ ks) :
    wfC (complete (get c k (RCb.pure 0)).1 k (some v) 0).1 ((k :: ks).take c.limit) ∧
    (complete (get c k (RCb.pure 0)).1 k (some v) 0).1.pending = [] ∧
    (complete (get c k (RCb.pure 0)).1 k (some v) 0).1.limit = c.limit := by
  have hm : alookup c.map k = none := by
    rw [alookup_eq_none_iff]
    intro hmem
    exact hk ((hw.2.2.1 k).mp hmem)
  have hpk : alookup c.pending k = none := by rw [hpend]; rfl
  rw [get_miss_new_eq c k (RCb.pure 0) hm hpk]
  have hc1p : ((k, [RCb.pure 0]) :: c.pending) = [(k, [RCb.pure 0])] := by rw [hpend]
  have hwc1 : wfC { c with pending := (k, [RCb.pure 0]) :: c.pending } ks :=
    wfC_pendingSet c _ ks hw
  have hwa := wfC_addEntry { c with pending := (k, [RCb.pure 0]) :: c.pending } k v ks hwc1 hm
  rw [show ({ c with pending := (k, [RCb.pure 0]) :: c.pending } : Cache K V).limit = c.limit
    from rfl] at hwa
  have hcomp : (complete { c with pending := (k, [RCb.pure 0]) :: c.pending } k (some v) 0).1 =
      { (addEntry { c with pending := (k, [RCb.pure 0]) :: c.pending } k v).1
        with pending := [] } := by
    have hpp : alookup
        (addEntry { c with pending := (k, [RCb.pure 0]) :: c.pending } k v).1.pending k =
        some [RCb.pure 0] := by
      rw [pending_addEntry]
      show alookup ((k, [RCb.pure 0]) :: c.pending) k = some [RCb.pure 0]
      simp [alookup]
    simp only [complete, hpp, Option.getD_some, drain, invokeReply]
    rw [pending_addEntry]
    rw [show ({ c with pending := (k, [RCb.pure 0]) :: c.pending } : Cache K V).pending =
      (k, [RCb.pure 0]) :: c.pending from rfl, hc1p]
    simp [aerase]
  rw [hcomp]
  refine ⟨wfC_pendingSet _ [] ((k :: ks).take c.limit) hwa, rfl, ?_⟩
  rw [show ({ (addEntry { c with pending := (k, [RCb.pure 0]) :: c.pending } k v).1
      with pending := ([] : List (K × List (RCb K))) } : Cache K V).limit =
    (addEntry { c with pending := (k, [RCb.pure 0]) :: c.pending } k v).1.limit from rfl]
  rw [limit_addEntry]

/-- Inserting a sequence of fresh keys (each by fetch completion) into a
roomy well-formed cache yields the walk: newest first, then the old walk. -/
theorem insertSeq_spec : ∀ (kvs : List (K × V)) (c : Cache K V) (ks : List K),
    wfC c ks → c.pending = [] → (kvs.map Prod.fst).Nodup →
    (∀ p ∈ kvs, p.1 ∉ ks) → ks.length + kvs.length ≤ c.limit →
    wfC (insertSeq c kvs) ((kvs.map Prod.fst).reverse ++ ks) ∧
      (insertSeq c kvs).pending = [] ∧ (insertSeq c kvs).limit = c.limit := by
  intro kvs
  induction kvs with
  | nil =>
    intro c ks hw hp hnd hnotin hlen
    exact ⟨by simpa using hw, hp, rfl⟩
  | cons kv t ih =>
    obtain ⟨k, v⟩ := kv
    intro c ks hw hp hnd hnotin hlen
    show wfC (insertSeq (complete (get c k (RCb.pure 0)).1 k (some v) 0).1 t) _ ∧ _ ∧ _
    have hstep := insertSeq_step c k v ks hw hp (hnotin (k, v) (by simp))
    obtain ⟨hw2, hp2, hl2⟩ := hstep
    have htk : (k :: ks).take c.limit = k :: ks := by
      refine List.take_of_length_le ?_
      simp only [List.length_cons]
      simp only [List.length_cons] at hlen
      omega
    rw [htk] at hw2
    have hnd2 : (t.map Prod.fst).Nodup := by
      simp only [List.map_cons, List.nodup_cons] at hnd
      exact hnd.2
    have hknott : k ∉ t.map Prod.fst := by
      simp only [List.map_cons, List.nodup_cons] at hnd
      exact hnd.1
    have hnotin2 : ∀ p ∈ t, p.1 ∉ k :: ks := by
      intro p hpt
      simp only [List.mem_cons]
      rintro (h | h)
      · exact hknott (h ▸ List.mem_map_of_mem Prod.fst hpt)
      · exact hnotin p (List.mem_cons_of_mem _ hpt) h
    have hlen2 : (k :: ks).length + t.length ≤
        (complete (get c k (RCb.pure 0)).1 k (some v) 0).1.limit := by
      rw [hl2]
      simp only [List.length_cons]
      simp only [List.map_cons, List.length_cons] at hlen
      omega
    have := ih (complete (get c k (RCb.pure 0)).1 k (some v) 0).1 (k :: ks)
      hw2 hp2 hnd2 hnotin2 hlen2
    obtain ⟨hwf, hpf, hlf⟩ := this
    refine ⟨?_, hpf, ?_⟩
    · have harr : ((k :: t.map Prod.fst).reverse : List K) ++ ks =
          (t.map Prod.fst).reverse ++ (k :: ks) := by
        rw [List.reverse_cons, List.append_assoc]
        rfl
      simp only [List.map_cons]
      rw [harr]
      exact hwf
    · show (insertSeq (complete (get c k (RCb.pure 0)).1 k (some v) 0).1 t).limit = c.limit
      rw [hlf, hl2]

theorem take_append_take (X Y : List K) (l : Nat) :
    (X ++ Y.take l).take l = (X ++ Y).take l := by
  rw [List.take_append_eq_append_take, List.take_append_eq_append_take, List.take_take,
    Nat.min_eq_left (Nat.sub_le _ _)]

/-- Inserting any sequence of distinct fresh keys via fetch completions:
the walk is the newest keys first, truncated to the capacity (older keys
fall off the tail through `evict_lru`). -/
theorem insertSeq_take_spec : ∀ (kvs : List (K × V)) (c : Cache K V) (ks : List K),
    wfC c ks → c.pending = [] → (kvs.map Prod.fst).Nodup →
    (∀ p ∈ kvs, p.1 ∉ ks) → ks.length ≤ c.limit →
    wfC (insertSeq c kvs) (((kvs.map Prod.fst).reverse ++ ks).take c.limit) ∧
      (insertSeq c kvs).pending = [] ∧ (insertSeq c kvs).limit = c.limit := by
  intro kvs
  induction kvs with
  | nil =>
    intro c ks hw hp hnd hnotin hlen
    refine ⟨?_, hp, rfl⟩
    show wfC c _
    rw [show ((([] : List (K × V)).map Prod.fst).reverse ++ ks) = ks by simp]
    rw [List.take_of_length_le hlen]
    exact hw
  | cons kv t ih =>
    obtain ⟨k, v⟩ := kv
    intro c ks hw hp hnd hnotin hlen
    show wfC (insertSeq (complete (get c k (RCb.pure 0)).1 k (some v) 0).1 t) _ ∧ _ ∧ _
    have hstep := insertSeq_step c k v ks hw hp (hnotin (k, v) (by simp))
    obtain ⟨hw2, hp2, hl2⟩ := hstep
    have hnd2 : (t.map Prod.fst).Nodup := by
      simp only [List.map_cons, List.nodup_cons] at hnd
      exact hnd.2
    have hknott : k ∉ t.map Prod.fst := by
      simp only [List.map_cons, List.nodup_cons] at hnd
      exact hnd.1
    have hnotin2 : ∀ p ∈ t, p.1 ∉ (k :: ks).take c.limit := by
      intro p hpt hmem
      have hmem2 : p.1 ∈ k :: ks := List.take_subset _ _ hmem
      rcases List.mem_cons.mp hmem2 with h | h
      · exact hknott (h ▸ List.mem_map_of_mem Prod.fst hpt)
      · exact hnotin p (List.mem_cons_of_mem _ hpt) h
    have hlen2 : ((k :: ks).take c.limit).length ≤
        (complete (get c k (RCb.pure 0)).1 k (some v) 0).1.limit := by
      rw [hl2]
      exact List.length_take_le _ _
    have hres := ih (complete (get c k (RCb.pure 0)).1 k (some v) 0).1
      ((k :: ks).take c.limit) hw2 hp2 hnd2 hnotin2 hlen2
    obtain ⟨hwf, hpf, hlf⟩ := hres
    rw [hl2] at hwf
    refine ⟨?_, hpf, ?_⟩
    · have e1 : (((k, v) :: t).map Prod.fst).reverse ++ ks =
          (t.map Prod.fst).reverse ++ (k :: ks) := by
        simp only [List.map_cons]
        rw [List.reverse_cons, List.append_assoc]
        rfl
      rw [e1, ← take_append_take]
      exact hwf
    · show (insertSeq (complete (get c k (RCb.pure 0)).1 k (some v) 0).1 t).limit = c.limit
      rw [hlf, hl2]

end Behaviour

/-! ## The claims -/

section Claims

variable {K V : Type} [DecidableEq K]

/-- C3: starting from the empty cache, after every sequence of public
operations (`get`, `find`, `invalidate`, `flush`) and fetch completions,
every non-sentinel entry reachable in the Recency List — by
well-formedness these are exactly the keys in the Index — satisfies the
linkage invariant `e.newer_->older_ == e ∧ e.older_->newer_ == e`
(reading a link of the sentinel when a neighbour is the sentinel). -/
theorem claim_C3_list_integrity (limit : Nat) (ops : List (Op K V)) (k : K)
    (hk : (alookup (runOps (emptyCache K V limit) ops).map k).isSome) :
    readOlder (runOps (emptyCache K V limit) ops)
        (readNewer (runOps (emptyCache K V limit) ops) (some k)) = some k ∧
      readNewer (runOps (emptyCache K V limit) ops)
        (readOlder (runOps (emptyCache K V limit) ops) (some k)) = some k := by
  obtain ⟨⟨ks, hw⟩, _, _⟩ := InvB_runOps ops (emptyCache K V limit) (InvB_empty limit)
  refine wfC_linkage _ ks hw k ?_
  exact (hw.2.2.1 k).mp ((alookup_isSome_iff _ _).mp hk)

/-- Witness for C3: a concrete run (one fetch inserting key 0 into a
cache of capacity 1) on which the linkage invariant is checked. -/
theorem claim_C3_list_integrity_witness :
    readOlder (runOps (emptyCache Nat Nat 1) [Op.get 0 (RCb.pure 0), Op.complete 0 (some 5) 0])
        (readNewer (runOps (emptyCache Nat Nat 1)
          [Op.get 0 (RCb.pure 0), Op.complete 0 (some 5) 0]) (some 0)) = some 0 ∧
      readNewer (runOps (emptyCache Nat Nat 1) [Op.get 0 (RCb.pure 0), Op.complete 0 (some 5) 0])
        (readOlder (runOps (emptyCache Nat Nat 1)
          [Op.get 0 (RCb.pure 0), Op.complete 0 (some 5) 0]) (some 0)) = some 0 :=
  claim_C3_list_integrity 1 [Op.get 0 (RCb.pure 0), Op.complete 0 (some 5) 0] 0 (by decide)

/-- C4: the eviction loop (`enforce_limit`, run after every insertion of
a fetched value) repeatedly evicts the current tail (`sentinel_.second.newer_`,
the least-recently-used entry) while `size() > limit`.  Consequently,
first, after any sequence of operations from the empty cache —
in particular whenever control returns from an insertion path, including
`limit = 0` where an inserted entry is evicted immediately —
`Index.size() ≤ limit`; and second, inserting any sequence of distinct
keys leaves exactly the most recently inserted `limit` of them resident
(the older ones were evicted from the tail). -/
theorem claim_C4_size_bound (limit : Nat) (ops : List (Op K V)) (kvs : List (K × V))
    (hnd : (kvs.map Prod.fst).Nodup) :
    (runOps (emptyCache K V limit) ops).map.length ≤ limit ∧
    toList (insertSeq (emptyCache K V limit) kvs) =
      ((kvs.map Prod.fst).reverse).take limit := by
  constructor
  · have h := InvB_runOps ops (emptyCache K V limit) (InvB_empty limit)
    have hl : (runOps (emptyCache K V limit) ops).limit = limit := by
      rw [limit_runOps]
      rfl
    exact le_trans h.2.2 (le_of_eq hl)
  · have h := insertSeq_take_spec kvs (emptyCache K V limit) [] (wfC_empty limit) rfl hnd
      (by intro p hp; simp) (by simp)
    obtain ⟨hw, _, _⟩ := h
    have := toList_eq_of_wfC _ _ hw
    simpa using this

/-- Witness for C4: three distinct keys inserted into a cache of
capacity 2 leave the two newest resident, and a run stays within the
bound. -/
theorem claim_C4_size_bound_witness :
    (runOps (emptyCache Nat Nat 2) [Op.get 0 (RCb.pure 0)]).map.length ≤ 2 ∧
    toList (insertSeq (emptyCache Nat Nat 2) [(0, 1), (1, 2), (2, 3)]) =
      (([(0, 1), (1, 2), (2, 3)].map Prod.fst).reverse).take 2 :=
  claim_C4_size_bound 2 [Op.get 0 (RCb.pure 0)] [(0, 1), (1, 2), (2, 3)] (by decide)

/-- C6: on a hit, `get` invokes the reply exactly once, synchronously,
with a cursor to the entry and the no-error value, after moving the entry
to the list head (`begin()` = `sentinel_.second.older_` then refers to
it); the Index's keys, stored values and size are unchanged, the Pending
Wait-List is unchanged, and the fetch function is not invoked (the event
trace is exactly the one reply invocation). -/
theorem claim_C6_hit (c : Cache K V) (k : K) (nd : Node K V) (i : Nat)
    (h : alookup c.map k = some nd) :
    (get c k (RCb.pure i)).2 = [Event.replyInvoked i (some k) noError] ∧
    (get c k (RCb.pure i)).1.sOlder = some k ∧
    keys (get c k (RCb.pure i)).1 = keys c ∧
    (∀ x, nodeVal (get c k (RCb.pure i)).1 x = nodeVal c x) ∧
    (get c k (RCb.pure i)).1.map.length = c.map.length ∧
    (get c k (RCb.pure i)).1.pending = c.pending := by
  rw [get_hit_eq c k (RCb.pure i) nd h]
  refine ⟨rfl, ?_, ?_, ?_, ?_, ?_⟩
  · exact sOlder_touch c (some k)
  · exact keys_touch c (some k)
  · intro x; exact nodeVal_touch c (some k) x
  · exact length_map_touch c (some k)
  · exact pending_touch c (some k)

/-- Witness for C6: a hit on key 0 in a concrete two-entry cache. -/
theorem claim_C6_hit_witness :
    (get twoEntryCache 0 (RCb.pure 3)).2 = [Event.replyInvoked 3 (some 0) noError] ∧
    (get twoEntryCache 0 (RCb.pure 3)).1.sOlder = some 0 ∧
    keys (get twoEntryCache 0 (RCb.pure 3)).1 = keys twoEntryCache ∧
    (∀ x, nodeVal (get twoEntryCache 0 (RCb.pure 3)).1 x = nodeVal twoEntryCache x) ∧
    (get twoEntryCache 0 (RCb.pure 3)).1.map.length = twoEntryCache.map.length ∧
    (get twoEntryCache 0 (RCb.pure 3)).1.pending = twoEntryCache.pending :=
  claim_C6_hit twoEntryCache 0 (Node.mk (some 5) none (some 1)) 3 (by decide)

/-- C7: in the miss-with-no-outstanding-fetch path, the Pending Wait-List
entry for `key` — already containing the reply — is registered in the
state in which the fetch function is invoked, so a completion fired
synchronously from inside the fetch invocation (i.e. `complete` applied
to that state) finds it and drains exactly that reply. -/
theorem claim_C7_pending_registered_before_fetch (c : Cache K V) (k : K) (i : Nat)
    (v : Option V) (err : Nat)
    (hm : alookup c.map k = none) (hp : alookup c.pending k = none) :
    (get c k (RCb.pure i)).2 = [Event.fetchInvoked k] ∧
    alookup (get c k (RCb.pure i)).1.pending k = some [RCb.pure i] ∧
    (complete (get c k (RCb.pure i)).1 k v err).2 =
      [Event.replyInvoked i (v.map fun _ => k) err] := by
  rw [get_miss_new_eq c k (RCb.pure i) hm hp]
  refine ⟨rfl, by simp [alookup], ?_⟩
  cases v with
  | none =>
    show (complete { c with pending := (k, [RCb.pure i]) :: c.pending } k none err).2 = _
    simp [complete, alookup, drain, invokeReply]
  | some val =>
    show (complete { c with pending := (k, [RCb.pure i]) :: c.pending } k (some val) err).2 = _
    simp only [complete, snd_addEntry, pending_addEntry]
    simp [alookup, drain, invokeReply]

/-- Witness for C7: a miss on the empty cache registers the wait-list
entry before the fetch fires; a synchronous error completion drains it. -/
theorem claim_C7_pending_registered_before_fetch_witness :
    (get (emptyCache Nat Nat 1) 0 (RCb.pure 4)).2 = [Event.fetchInvoked 0] ∧
    alookup (get (emptyCache Nat Nat 1) 0 (RCb.pure 4)).1.pending 0 = some [RCb.pure 4] ∧
    (complete (get (emptyCache Nat Nat 1) 0 (RCb.pure 4)).1 0 none 3).2 =
      [Event.replyInvoked 4 ((none : Option Nat).map fun _ => 0) 3] :=
  claim_C7_pending_registered_before_fetch (emptyCache Nat Nat 1) 0 4 none 3
    (by decide) (by decide)

theorem aemplace_of_none {A : Type} (m : List (K × A)) (k : K) (a : A)
    (h : alookup m k = none) : aemplace m k a = (k, a) :: m := by
  unfold aemplace
  rw [h]

theorem keys_pendingSet (c : Cache K V) (p : List (K × List (RCb K))) :
    keys { c with pending := p } = keys c := rfl

theorem enforceLimit_noop (c : Cache K V) (h : ¬ (c.map.length > c.limit)) :
    enforceLimit c = c :=
  enforceLimitAux_noop c.map.length c h

theorem keys_addEntry_fresh_noevict (c : Cache K V) (k : K) (v : V)
    (hm : alookup c.map k = none) (hroom : c.map.length < c.limit) :
    keys (addEntry c k v).1 = k :: keys c := by
  have h1 : (addEntry c k v).1 = enforceLimit (insertAtHead
      { c with map := (k, Node.mk (some v) none none) :: c.map } (some k)) := by
    show enforceLimit (insertAtHead
      { c with map := aemplace c.map k (Node.mk (some v) none none) } (some k)) = _
    rw [aemplace_of_none _ _ _ hm]
  rw [h1, enforceLimit_noop, keys_insertAtHead]
  · rfl
  · rw [length_map_insertAtHead, limit_insertAtHead]
    show ¬ (((k, Node.mk (some v) none none) :: c.map).length > c.limit)
    simp only [List.length_cons]
    omega

theorem keys_complete_some (c : Cache K V) (k : K) (v : V) (err : Nat) :
    keys (complete c k (some v) err).1 = keys (addEntry c k v).1 := by
  simp only [complete]
  rw [keys_pendingSet, keys_drain]

theorem alookup_pPush_self (p : List (K × List (RCb K))) (k : K) (r : RCb K)
    (rs : List (RCb K)) (h : alookup p k = some rs) :
    alookup (pPush p k r) k = some (rs ++ [r]) := by
  unfold pPush
  rw [alookup_aupdate_self, h]
  rfl

/-- While a fetch for `k` is outstanding, any number of further `get k`
calls invoke nothing (no fetch, no replies) and only append their replies
to the existing Pending Wait-List entry, leaving the Index untouched. -/
theorem getSeq_coalesces : ∀ (ids : List Nat) (c : Cache K V) (k : K) (rs : List (RCb K)),
    alookup c.map k = none → alookup c.pending k = some rs →
    getSeqEvents c k ids = [] ∧ (getSeq c k ids).map = c.map ∧
    alookup (getSeq c k ids).pending k = some (rs ++ ids.map RCb.pure) := by
  intro ids
  induction ids with
  | nil =>
    intro c k rs hm hp
    exact ⟨rfl, rfl, by rw [List.map_nil, List.append_nil]; exact hp⟩
  | cons i t ih =>
    intro c k rs hm hp
    have e := get_miss_pending_eq c k (RCb.pure i) rs hm hp
    have hp2 : alookup (pPush c.pending k (RCb.pure i)) k = some (rs ++ [RCb.pure i]) :=
      alookup_pPush_self c.pending k (RCb.pure i) rs hp
    have hres := ih { c with pending := pPush c.pending k (RCb.pure i) } k
      (rs ++ [RCb.pure i]) hm hp2
    obtain ⟨h1, h2, h3⟩ := hres
    refine ⟨?_, ?_, ?_⟩
    · show (get c k (RCb.pure i)).2 ++ getSeqEvents (get c k (RCb.pure i)).1 k t = []
      rw [e]
      exact h1
    · show (getSeq (get c k (RCb.pure i)).1 k t).map = c.map
      rw [e]
      exact h2
    · show alookup (getSeq (get c k (RCb.pure i)).1 k t).pending k = _
      rw [e, h3, List.append_assoc]
      rfl

/-- C1: if two or more `get` calls are made for the same missing key
before the fetch completes, the fetch function is invoked exactly once
(only the first call emits a fetch event; every later call emits nothing
and only appends its reply to the existing Pending Wait-List entry), and
when completion fires every queued callback receives the identical
result, in FIFO order — the same cursor (the new entry's on success,
`cend()` on failure) and the same error. -/
theorem claim_C1_coalescing (c : Cache K V) (k : K) (i1 : Nat) (ids : List Nat)
    (v : Option V) (err : Nat)
    (hm : alookup c.map k = none) (hp : alookup c.pending k = none) :
    (get c k (RCb.pure i1)).2 = [Event.fetchInvoked k] ∧
    getSeqEvents (get c k (RCb.pure i1)).1 k ids = [] ∧
    alookup (getSeq (get c k (RCb.pure i1)).1 k ids).pending k =
      some ((i1 :: ids).map RCb.pure) ∧
    (complete (getSeq (get c k (RCb.pure i1)).1 k ids) k v err).2 =
      (i1 :: ids).map fun i => Event.replyInvoked i (v.map fun _ => k) err := by
  have e1 := get_miss_new_eq c k (RCb.pure i1) hm hp
  rw [e1]
  have hp1 : alookup ((k, [RCb.pure i1]) :: c.pending) k = some [RCb.pure i1] := by
    simp [alookup]
  have hco := getSeq_coalesces ids { c with pending := (k, [RCb.pure i1]) :: c.pending }
    k [RCb.pure i1] hm hp1
  obtain ⟨h1, h2, h3⟩ := hco
  have h3' : alookup (getSeq { c with pending := (k, [RCb.pure i1]) :: c.pending } k
      ids).pending k = some ((i1 :: ids).map RCb.pure) := by
    rw [h3]
    rfl
  refine ⟨rfl, h1, h3', ?_⟩
  have hd := drain_pures
    (match v with
      | some val => addEntry (getSeq { c with pending := (k, [RCb.pure i1]) :: c.pending }
          k ids) k val
      | none => (getSeq { c with pending := (k, [RCb.pure i1]) :: c.pending } k ids, none)).1
    (i1 :: ids) (v.map fun _ => k) err
  cases v with
  | none =>
    simp only [complete, h3', Option.getD_some, Option.map_none'] at hd ⊢
    rw [hd]
  | some val =>
    simp only [complete, snd_addEntry, pending_addEntry, h3', Option.getD_some,
      Option.map_some'] at hd ⊢
    rw [hd]

/-- Witness for C1: coalescing three gets for key 0 on the empty cache,
then completing with a value. -/
theorem claim_C1_coalescing_witness :
    (get (emptyCache Nat Nat 1) 0 (RCb.pure 1)).2 = [Event.fetchInvoked 0] ∧
    getSeqEvents (get (emptyCache Nat Nat 1) 0 (RCb.pure 1)).1 0 [2, 3] = [] ∧
    alookup (getSeq (get (emptyCache Nat Nat 1) 0 (RCb.pure 1)).1 0 [2, 3]).pending 0 =
      some ([1, 2, 3].map RCb.pure) ∧
    (complete (getSeq (get (emptyCache Nat Nat 1) 0 (RCb.pure 1)).1 0 [2, 3]) 0
        (some 5) 0).2 =
      ([1, 2, 3].map fun i => Event.replyInvoked i ((some 5).map fun _ => 0) 0) :=
  claim_C1_coalescing (emptyCache Nat Nat 1) 0 1 [2, 3] (some 5) 0 (by decide) (by decide)

/-- Counterexample to C2 as stated: the source's completion invokes the
queued callbacks and only then erases the Pending Wait-List entry; the
spec-ordered variant (`completeSpecOrder`, erase before invoking) is
observably different.  With a single waiter that re-entrantly calls
`get 0` and an error completion, the source's `complete` lets the
re-entrant call coalesce (no fetch event); under the claimed order the
entry is already gone, so the re-entrant call starts a second fetch. -/
theorem claim_C2_counterexample :
    (complete reentrantPendingCache 0 none 7).2 = [Event.replyInvoked 1 none 7] ∧
    (completeSpecOrder reentrantPendingCache 0 none 7).2 =
      [Event.replyInvoked 1 none 7, Event.fetchInvoked 0] ∧
    (complete reentrantPendingCache 0 none 7).2 ≠
      (completeSpecOrder reentrantPendingCache 0 none 7).2 := by
  refine ⟨by decide, by decide, by decide⟩

/-- C2 (amended): when the one-shot completion fires for key `k`, the
value (if one was supplied) is first inserted at the list head — a
re-entrant `get k` from inside the drain already hits the new entry and
replies with its cursor — then every queued `on_reply` is invoked in FIFO
enqueue order with the identical `(result_cursor, error)`, and the
Pending Wait-List entry for `k` is removed after (not before) the queued
callbacks are invoked: a waiter re-entrantly calling `get k` during an
error-completion drain still finds the entry and coalesces instead of
starting a second fetch; the entry is erased once the drain finishes. -/
theorem claim_C2_amended (c c2 : Cache K V) (k : K) (i1 i2 i3 j1 j2 : Nat) (val : V)
    (err err2 : Nat)
    (hm : alookup c.map k = none)
    (hp : alookup c.pending k = some [RCb.pure i1, RCb.thenGet i2 k (RCb.pure i3)])
    (hroom : c.map.length < c.limit)
    (hm2 : alookup c2.map k = none)
    (hp2 : alookup c2.pending k = some [RCb.thenGet j1 k (RCb.pure j2)]) :
    (complete c k (some val) err).2 =
      [Event.replyInvoked i1 (some k) err, Event.replyInvoked i2 (some k) err,
        Event.replyInvoked i3 (some k) noError] ∧
    alookup (complete c k (some val) err).1.pending k = none ∧
    (complete c2 k none err2).2 = [Event.replyInvoked j1 none err2] ∧
    alookup (complete c2 k none err2).1.pending k = none := by
  have hadd : (addEntry c k val).1 =
      insertAtHead { c with map := (k, Node.mk (some val) none none) :: c.map } (some k) := by
    show enforceLimit (insertAtHead
      { c with map := aemplace c.map k { value := some val, older := none, newer := none } }
      (some k)) = _
    rw [aemplace_of_none c.map k _ hm]
    show enforceLimitAux _ _ = _
    refine enforceLimitAux_noop _ _ ?_
    rw [length_map_insertAtHead, limit_insertAtHead]
    show ¬ (((k, Node.mk (some val) none none) :: c.map).length > c.limit)
    simp only [List.length_cons]
    omega
  have hAk : (alookup (insertAtHead
      { c with map := (k, Node.mk (some val) none none) :: c.map } (some k)).map k).isSome := by
    rw [← mem_keys_iff_isSome, keys_insertAtHead]
    show k ∈ ((k, Node.mk (some val) none none) :: c.map).map Prod.fst
    simp
  obtain ⟨ndA, hndA⟩ := Option.isSome_iff_exists.mp hAk
  refine ⟨?_, ?_, ?_, ?_⟩
  · simp [complete, snd_addEntry, pending_addEntry, hadd, pending_insertAtHead, hp,
      drain, invokeReply, hndA]
  · exact alookup_aerase_self _ _
  · simp [complete, hp2, drain, invokeReply, hm2, getMiss]
  · exact alookup_aerase_self _ _

/-- Witness for C2 (amended): concrete re-entrant drains on caches with
one outstanding fetch for key 0. -/
theorem claim_C2_amended_witness :
    (complete reentrantPendingCache2 0 (some 8) 9).2 =
      [Event.replyInvoked 4 (some 0) 9, Event.replyInvoked 5 (some 0) 9,
        Event.replyInvoked 6 (some 0) noError] ∧
    alookup (complete reentrantPendingCache2 0 (some 8) 9).1.pending 0 = none ∧
    (complete reentrantPendingCache 0 none 3).2 = [Event.replyInvoked 1 none 3] ∧
    alookup (complete reentrantPendingCache 0 none 3).1.pending 0 = none :=
  claim_C2_amended reentrantPendingCache2 reentrantPendingCache 0 4 5 6 1 2 8 9 3
    (by decide) (by decide) (by decide) (by decide) (by decide)

/-- C5: inserting distinct keys `k0..k(n-1)` in order via successful
fetch completions into an initially empty cache of capacity ≥ n (no
intervening hits or removals) makes traversal from `begin()` yield them
most-recently-inserted first: `[k(n-1), …, k0]`. -/
theorem claim_C5_recency_order (kvs : List (K × V)) (limit : Nat)
    (hnd : (kvs.map Prod.fst).Nodup) (hlen : kvs.length ≤ limit) :
    toList (insertSeq (emptyCache K V limit) kvs) = (kvs.map Prod.fst).reverse := by
  have h := insertSeq_spec kvs (emptyCache K V limit) [] (wfC_empty limit) rfl hnd
    (by intro p hp; simp) (by simpa using hlen)
  obtain ⟨hw, _, _⟩ := h
  have := toList_eq_of_wfC _ _ hw
  simpa using this

/-- Witness for C5: inserting keys 0, 1, 2 into an empty cache of
capacity 3 yields traversal [2, 1, 0]. -/
theorem claim_C5_recency_order_witness :
    toList (insertSeq (emptyCache Nat Nat 3) [(0, 10), (1, 11), (2, 12)]) =
      ([(0, 10), (1, 11), (2, 12)].map Prod.fst).reverse :=
  claim_C5_recency_order [(0, 10), (1, 11), (2, 12)] 3 (by decide) (by decide)

/-- C8: a fetch completing with no value and an error invokes every
coalesced waiter with the end-cursor and that error verbatim, creates no
entry (the Index — keys, values and links — is unchanged), and destroys
the Pending Wait-List entry for the key, exactly as on success. -/
theorem claim_C8_fetch_error (c : Cache K V) (k : K) (ids : List Nat) (err : Nat)
    (hp : alookup c.pending k = some (ids.map RCb.pure)) :
    (complete c k none err).2 = ids.map (fun i => Event.replyInvoked i none err) ∧
    (complete c k none err).1.map = c.map ∧
    alookup (complete c k none err).1.pending k = none := by
  have hd := drain_pures c ids none err
  refine ⟨?_, ?_, ?_⟩
  · simp only [complete, hp, Option.getD_some, hd]
  · simp only [complete, hp, Option.getD_some, hd]
  · exact alookup_aerase_self _ _

/-- Witness for C8: an error completion for key 0 with two coalesced
waiters on a concrete cache. -/
theorem claim_C8_fetch_error_witness :
    (complete pendingTwoCache 0 none 7).2 =
      [1, 2].map (fun i => Event.replyInvoked i none 7) ∧
    (complete pendingTwoCache 0 none 7).1.map = pendingTwoCache.map ∧
    alookup (complete pendingTwoCache 0 none 7).1.pending 0 = none :=
  claim_C8_fetch_error pendingTwoCache 0 [1, 2] 7 (by decide)

/-- C9: `flush` empties the Index and resets the sentinel self-loop but
leaves the Pending Wait-List untouched (and `invalidate` never touches it
either); a fetch in flight at flush time still completes and re-inserts
its result afterward. -/
theorem claim_C9_flush_preserves_pending (c : Cache K V) (k k2 : K) (rs : List (RCb K))
    (v : V) (hp : alookup c.pending k = some rs) (hlim : 1 ≤ c.limit) :
    (flush c).map = [] ∧ (flush c).sOlder = none ∧ (flush c).sNewer = none ∧
    (flush c).pending = c.pending ∧
    (invalidate c k2).pending = c.pending ∧
    alookup (flush c).pending k = some rs ∧
    (alookup (complete (flush c) k (some v) 0).1.map k).isSome := by
  refine ⟨rfl, rfl, rfl, rfl, ?_, hp, ?_⟩
  · unfold invalidate
    cases alookup c.map k2 with
    | some nd => exact pending_removeKey c k2
    | none => rfl
  · have hflm : (flush c).map.length < (flush c).limit := by
      show ([] : List (K × Node K V)).length < c.limit
      simpa using hlim
    have hkeysAdd : keys (addEntry (flush c) k v).1 = k :: keys (flush c) :=
      keys_addEntry_fresh_noevict (flush c) k v rfl hflm
    rw [← mem_keys_iff_isSome, keys_complete_some, hkeysAdd]
    simp

/-- Witness for C9: flushing a cache with an outstanding fetch for key 0,
then completing that fetch, repopulates the Index with key 0. -/
theorem claim_C9_flush_preserves_pending_witness :
    (flush pendingTwoCache).map = [] ∧ (flush pendingTwoCache).sOlder = none ∧
    (flush pendingTwoCache).sNewer = none ∧
    (flush pendingTwoCache).pending = pendingTwoCache.pending ∧
    (invalidate pendingTwoCache 1).pending = pendingTwoCache.pending ∧
    alookup (flush pendingTwoCache).pending 0 = some [RCb.pure 1, RCb.pure 2] ∧
    (alookup (complete (flush pendingTwoCache) 0 (some 5) 0).1.map 0).isSome :=
  claim_C9_flush_preserves_pending pendingTwoCache 0 1 [RCb.pure 1, RCb.pure 2] 5
    (by decide) (by decide)

/-- C10: a waiter invoked during the completion drain for key `k` that
re-entrantly calls `get k` (here, after an error completion, so the key
is still absent from the Index) finds the Pending Wait-List entry still
present — it is erased only after the drain loop — appends its reply to
it, and does not invoke the fetch function a second time; when the drain
finishes the entry, including the re-entrantly appended reply, is erased. -/
theorem claim_C10_reentrant_drain (c : Cache K V) (k : K) (i1 i2 i3 : Nat) (err : Nat)
    (hm : alookup c.map k = none)
    (hp : alookup c.pending k = some [RCb.pure i1, RCb.thenGet i2 k (RCb.pure i3)]) :
    (complete c k none err).2 =
      [Event.replyInvoked i1 none err, Event.replyInvoked i2 none err] ∧
    (complete c k none err).1.map = c.map ∧
    alookup (complete c k none err).1.pending k = none := by
  refine ⟨?_, ?_, ?_⟩
  · simp only [complete, hp, Option.getD_some]
    simp [drain, invokeReply, hm, getMiss, hp]
  · simp only [complete, hp, Option.getD_some]
    simp [drain, invokeReply, hm, getMiss, hp]
  · exact alookup_aerase_self _ _

/-- Witness for C10: a concrete error-completion drain with a re-entrant
waiter for key 0. -/
theorem claim_C10_reentrant_drain_witness :
    (complete reentrantPendingCache2 0 none 9).2 =
      [Event.replyInvoked 4 none 9, Event.replyInvoked 5 none 9] ∧
    (complete reentrantPendingCache2 0 none 9).1.map = reentrantPendingCache2.map ∧
    alookup (complete reentrantPendingCache2 0 none 9).1.pending 0 = none :=
  claim_C10_reentrant_drain reentrantPendingCache2 0 4 5 6 9 (by decide) (by decide)

end Claims

end AsyncLru
